import Mathlib

/-!
Verification of the text/JSON serialization and lenient-parsing layer of the
brew-guide repository (src/lib/jsonUtils.ts), as a shallow embedding.

Modelling conventions:
* JS strings are modelled as `String` / `List Char`; all scanning primitives
  (`dropAfter`, `takeUntil`, `splitOnChar`, `jsTrim`, ...) are written on
  `List Char` and mirror the semantics of the specific JS regexes and string
  methods used by the source (first-match, lazy/greedy capture, `split`,
  `trim`, `includes`, `startsWith`).
* `Date.now()` and `Math.random()` are nondeterministic in JS; they are passed
  in as explicit parameters (`now : Nat`, `rand : String`).
* `JSON.parse` is modelled by an arbitrary parameter `jparse : String → Option Json`
  (`none` models a parse exception); the functions under verification never
  inspect how the JSON text was produced, only the resulting value.
* JS property access on `null` throws; this is modelled explicitly.  Numeric
  JSON stage fields are typed `number` in the source (`StageData`); values
  outside that contract (non-numeric or negative `time`/`pourTime`) are
  modelled as 0 seconds.
-/

namespace BrewGuide

/-! ## Definitions -/


/-! ### JS string primitives on lists of characters -/

/-- Whitespace as matched by the JS `\s` class and trimmed by `String.trim`
(restricted to the characters that occur in this format). -/
def jsWS (c : Char) : Bool :=
  c = ' ' ∨ c = '\t' ∨ c = '\n' ∨ c = '\r'

/-- Model of JS `String.prototype.trim`: drop whitespace from both ends. -/
def jsTrim (l : List Char) : List Char :=
  ((l.dropWhile jsWS).reverse.dropWhile jsWS).reverse

/-- Everything after the first occurrence of `pat` (the occurrence removed);
`none` when `pat` does not occur.  This is how all the `text.match(/LABEL.../)`
regexes of the source locate their label: the leftmost match of a regex whose
pattern begins with the literal `pat` starts at the first occurrence of `pat`. -/
def dropAfter (pat : List Char) : List Char → Option (List Char)
  | [] => none
  | c :: cs =>
    if pat.isPrefixOf (c :: cs) then some ((c :: cs).drop pat.length)
    else dropAfter pat cs

/-- Everything strictly before the first occurrence of `pat` (the whole list
when `pat` does not occur).  `l.takeUntil pat` models `l.split(pat)[0]`. -/
def takeUntil (pat : List Char) : List Char → List Char
  | [] => []
  | c :: cs =>
    if pat.isPrefixOf (c :: cs) then []
    else c :: takeUntil pat cs

/-- Split on a single character; models JS `"...".split(sep)` for a
one-character separator. -/
def splitOnChar (sep : Char) : List Char → List (List Char)
  | [] => [[]]
  | c :: cs =>
    if c = sep then [] :: splitOnChar sep cs
    else
      let r := splitOnChar sep cs
      (c :: r.headD []) :: r.tail

/-- Model of JS `text.includes(pat)` for a nonempty literal `pat`. -/
def hasOcc (pat cs : List Char) : Bool :=
  (dropAfter pat cs).isSome

/-- The decimal digit characters, for rendering naturals the way a JS template
literal does. -/
def digitChar (n : Nat) : Char :=
  if n = 0 then '0' else if n = 1 then '1' else if n = 2 then '2'
  else if n = 3 then '3' else if n = 4 then '4' else if n = 5 then '5'
  else if n = 6 then '6' else if n = 7 then '7' else if n = 8 then '8'
  else '9'

/-- Decimal rendering of a natural number (digit list), with explicit fuel to
keep the recursion structural. -/
def natCharsAux : Nat → Nat → List Char
  | 0, _ => []
  | fuel + 1, n =>
    if n < 10 then [digitChar n]
    else natCharsAux fuel (n / 10) ++ [digitChar (n % 10)]

/-- Decimal digit list of a natural number, as produced by a JS template
literal interpolating a (nonnegative integral) number. -/
def natChars (n : Nat) : List Char :=
  natCharsAux (n + 1) n

/-- Decimal string of a natural number. -/
def natToStr (n : Nat) : String :=
  String.mk (natChars n)

/-- Numeric value of a decimal digit character (0 for non-digits). -/
def digitVal (c : Char) : Nat :=
  if c = '1' then 1 else if c = '2' then 2 else if c = '3' then 3
  else if c = '4' then 4 else if c = '5' then 5 else if c = '6' then 6
  else if c = '7' then 7 else if c = '8' then 8 else if c = '9' then 9
  else 0

/-- Model of JS `parseInt` applied to a string of decimal digits (all call
sites in the source feed it a `\d+` capture). -/
def digitsToNat (ds : List Char) : Nat :=
  ds.foldl (fun a c => 10 * a + digitVal c) 0

/-- Capture of the regex `LABEL:\s*(.*?)(?:\n|$)` (first match): locate the
first occurrence of the label, skip the maximal whitespace run after it
(greedy `\s*`, which may cross newlines), then capture up to the next newline
or the end of the text. -/
def labeledValue (lab cs : List Char) : Option (List Char) :=
  (dropAfter lab cs).map (fun r => (r.dropWhile jsWS).takeWhile (· ≠ '\n'))

/-- Capture of a marker regex `MARKER(.*?)(?:\n|$)` (no `\s*`): capture
starts right after the first occurrence of the marker. -/
def markerValue (lab cs : List Char) : Option (List Char) :=
  (dropAfter lab cs).map (fun r => r.takeWhile (· ≠ '\n'))

/-- First match of a regex `LABEL\s*(\d+)SUF` style pattern (`容量:\s*(\d+)g`,
`价格:\s*(\d+)元`, `酸度:\s*(\d+)\/5`, and with `allowWs := false` the pattern
`剩余(\d+)g`): scan occurrences of the label left to right; at each one skip
optional whitespace, read a maximal nonempty digit run, and require the literal
suffix right after it. -/
def scanDigits (lab : List Char) (allowWs : Bool) (suf : List Char) :
    List Char → Option (List Char)
  | [] => none
  | c :: cs =>
    (if lab.isPrefixOf (c :: cs) then
      let rest := (c :: cs).drop lab.length
      let rest2 := if allowWs then rest.dropWhile jsWS else rest
      let ds := rest2.takeWhile Char.isDigit
      if ds ≠ [] ∧ suf.isPrefixOf (rest2.drop ds.length) then some ds
      else scanDigits lab allowWs suf cs
    else scanDigits lab allowWs suf cs)

/-! ### JSON values and JS value semantics -/

/-- JSON values as produced by `JSON.parse` (numbers restricted to integers;
no claim exercises fractional numbers). -/
inductive Json where
  | null : Json
  | bool (b : Bool) : Json
  | num (n : Int) : Json
  | str (s : String) : Json
  | arr (elems : List Json) : Json
  | obj (fields : List (String × Json)) : Json
deriving Repr

/-- Field lookup modelling JS property access on a non-null receiver:
`none` is JS `undefined` (missing field, or any non-object receiver). -/
def Json.lookup : Json → String → Option Json
  | .obj fields, k => fields.lookup k
  | _, _ => none

/-- JS truthiness of a JSON value. -/
def Json.truthy : Json → Bool
  | .null => false
  | .bool b => b
  | .num n => n ≠ 0
  | .str s => s ≠ ""
  | .arr _ => true
  | .obj _ => true

/-- JS truthiness of a possibly-`undefined` value. -/
def jsTruthy : Option Json → Bool
  | none => false
  | some j => j.truthy

/-- Model of JS string coercion (`String(v)` / template literal) for the JSON
values that can reach an interpolation site in the source. -/
def Json.toJsStr : Json → String
  | .null => "null"
  | .bool true => "true"
  | .bool false => "false"
  | .num n => toString n
  | .str s => s
  | .arr _ => ""
  | .obj _ => "[object Object]"

/-- JS template interpolation of a possibly-`undefined` value. -/
def jsInterp : Option Json → String
  | none => "undefined"
  | some j => j.toJsStr

/-- Model of the JS idiom `v || default` producing a string: a truthy value is
kept (string-coerced), a falsy or missing one is replaced by the default. -/
def strOr (v : Option Json) (dflt : String) : String :=
  if jsTruthy v then jsInterp v else dflt

/-- Model of the JS idiom `v || 0` for a field the `StageData` contract types
as `number`: a truthy numeric value is kept, anything else gives 0.  (The
source stores a truthy non-numeric value unchanged; such values are outside
the declared `StageData` type and are modelled as 0 seconds.  Negative times
are likewise outside the domain contract of cumulative seconds.) -/
def natOr0 (v : Option Json) : Nat :=
  match v with
  | some (.num n) => n.toNat
  | _ => 0

/-- Optional chaining `base?.k`: `undefined` and `null` receivers short-circuit
to `undefined`, otherwise an ordinary property access. -/
def optChain (base : Option Json) (k : String) : Option Json :=
  match base with
  | none => none
  | some .null => none
  | some j => j.lookup k

/-! ### Domain model (Stage / Method, parsed bean, brewing note) -/

/-- One brewing stage (`Stage` in the external config contract).  Time fields
are cumulative/duration seconds (naturals per the domain contract). -/
structure Stage where
  time : Nat
  pourTime : Nat
  label : String
  water : String
  detail : String
  pourType : String
  valveStatus : String
deriving Repr, DecidableEq

/-- Parameters of a brewing method. -/
structure MethodParams where
  coffee : String
  water : String
  ratio : String
  grindSize : String
  temp : String
  videoUrl : String
  stages : List Stage
deriving Repr, DecidableEq

/-- A brewing method. -/
structure Method where
  id : String
  name : String
  params : MethodParams
deriving Repr, DecidableEq

/-- One blend component as parsed from text (`{name, percentage}`). -/
structure BlendComp where
  name : String
  percentage : Nat
deriving Repr, DecidableEq

/-- The coffee-bean record built by `parseCoffeeBeanText`.  Fields that the
parser only adds on a successful match are `Option`s (`none` is JS
`undefined`); the others start at the listed defaults. -/
structure ParsedBean where
  name : String
  capacity : String
  remaining : String
  roastLevel : String
  flavor : List String
  roastDate : Option String
  origin : Option String
  process : Option String
  variety : Option String
  type : Option String
  price : Option String
  notes : Option String
  blendComponents : Option (List BlendComp)
deriving Repr, DecidableEq

/-- Taste ratings of a brewing note. -/
structure TasteRatings where
  acidity : Nat
  sweetness : Nat
  bitterness : Nat
  body : Nat
deriving Repr, DecidableEq

/-- The brewing-note record built by `parseBrewingNoteText`. -/
structure BrewingNote where
  id : String
  equipment : String
  method : String
  beanName : String
  beanRoastLevel : String
  coffee : String
  water : String
  ratio : String
  grindSize : String
  temp : String
  taste : TasteRatings
  rating : Nat
  notes : String
deriving Repr, DecidableEq

/-- One blend component of a bean being formatted
(`{percentage, origin?, process?, variety?}`). -/
structure BlendCompIn where
  percentage : Nat
  origin : String
  process : String
  variety : String
deriving Repr, DecidableEq

/-- Input to `beanToReadableText` (destructured `bean : any`).  String fields
use `""` for a falsy/missing value; `flavor`/`blendComponents` use `[]`. -/
structure BeanInput where
  name : String
  capacity : String
  remaining : String
  roastLevel : String
  roastDate : String
  flavor : List String
  origin : String
  process : String
  variety : String
  type : String
  price : String
  notes : String
  blendComponents : List BlendCompIn
deriving Repr, DecidableEq

/-! ### Text formatter (`methodToReadableText`, `beanToReadableText`) -/

/-- Chinese label of a pour type (`getPourTypeText`); the JS `switch` default
also yields "绕圈注水". -/
def getPourTypeText (pourType : String) : String :=
  if pourType = "center" then "中心注水"
  else if pourType = "circle" then "绕圈注水"
  else if pourType = "ice" then "冰块注水"
  else if pourType = "other" then "其他方式"
  else "绕圈注水"

/-- The ` (注水X秒)` decoration of a step header (present when `pourTime` is
truthy, i.e. nonzero). -/
def pourTimeDeco (st : Stage) : List Char :=
  if st.pourTime ≠ 0 then " (注水".data ++ natChars st.pourTime ++ "秒)".data else []

/-- The ` [<pour type label>]` decoration of a step header (present when
`pourType` is truthy, i.e. nonempty). -/
def pourTypeDeco (st : Stage) : List Char :=
  if st.pourType ≠ "" then " [".data ++ (getPourTypeText st.pourType).data ++ "]".data else []

/-- The step header line rendered for stage `st` at (0-based) index `idx`:
`<idx+1>. [<m>分<s>秒]<pourTime deco><pourType deco> <label> - <water>`
(without the trailing newline). -/
def stageLineChars (idx : Nat) (st : Stage) : List Char :=
  natChars (idx + 1) ++ ". [".data ++ natChars (st.time / 60) ++ "分".data ++
    natChars (st.time % 60) ++ "秒]".data ++ pourTimeDeco st ++ pourTypeDeco st ++
    [' '] ++ st.label.data ++ " - ".data ++ st.water.data

/-- One full step block: header line, optional indented detail line, and the
blank separator line. -/
def stageBlockChars (idx : Nat) (st : Stage) : List Char :=
  stageLineChars idx st ++ ['\n'] ++
    (if st.detail ≠ "" then "   ".data ++ st.detail.data ++ ['\n'] else []) ++ ['\n']

/-- The concatenated step blocks of a stage list, numbering from `idx`. -/
def stageBlocks (idx : Nat) : List Stage → List Char
  | [] => []
  | st :: rest => stageBlockChars idx st ++ stageBlocks (idx + 1) rest

/-- One `LABEL: value-or-未设置` parameter line (value shown as 未设置 when
falsy, i.e. the empty string). -/
def paramLineChars (lab v : String) : List Char :=
  lab.data ++ (if v = "" then "未设置".data else v.data) ++ ['\n']

/-- Character-level body of `methodToReadableText`. -/
def methodChars (m : Method) : List Char :=
  "【冲煮方案】".data ++ m.name.data ++ "\n\n".data ++
    paramLineChars "咖啡粉量: " m.params.coffee ++
    paramLineChars "水量: " m.params.water ++
    paramLineChars "比例: " m.params.ratio ++
    paramLineChars "研磨度: " m.params.grindSize ++
    paramLineChars "水温: " m.params.temp ++
    (if m.params.stages ≠ [] then "\n冲煮步骤:\n\n".data ++ stageBlocks 0 m.params.stages
     else []) ++
    "--- 复制以上内容可分享和导入 ---".data ++
    "\n\n@DATA_TYPE:BREWING_METHOD@".data

/-- Embedding of `methodToReadableText`. -/
def methodToReadableText (m : Method) : String :=
  String.mk (methodChars m)

/-- The truthy members of `[origin, process, variety]` of a blend component,
as pushed onto `details` by the source. -/
def compDetails (c : BlendCompIn) : List String :=
  [c.origin, c.process, c.variety].filter (· ≠ "")

/-- The rendered blend-component lines
`  <idx+1>. <percentage>% <origin | process | variety>`. -/
def blendLinesChars (idx : Nat) : List BlendCompIn → List Char
  | [] => []
  | c :: rest =>
    "  ".data ++ natChars (idx + 1) ++ ". ".data ++ natChars c.percentage ++ "% ".data ++
      (String.intercalate " | " (compDetails c)).data ++ ['\n'] ++ blendLinesChars (idx + 1) rest

/-- Character-level body of `beanToReadableText`. -/
def beanChars (b : BeanInput) : List Char :=
  "【咖啡豆】".data ++ b.name.data ++ ['\n'] ++
    "容量: ".data ++ b.capacity.data ++ ['g'] ++
    (if b.remaining ≠ b.capacity then " (剩余".data ++ b.remaining.data ++ "g)".data else []) ++
    ['\n'] ++
    "烘焙度: ".data ++ (if b.roastLevel = "" then "未知".data else b.roastLevel.data) ++ ['\n'] ++
    (if b.roastDate ≠ "" then "烘焙日期: ".data ++ b.roastDate.data ++ ['\n'] else []) ++
    (if b.origin ≠ "" then "产地: ".data ++ b.origin.data ++ ['\n'] else []) ++
    (if b.process ≠ "" then "处理法: ".data ++ b.process.data ++ ['\n'] else []) ++
    (if b.variety ≠ "" then "品种: ".data ++ b.variety.data ++ ['\n'] else []) ++
    (if b.type ≠ "" then "类型: ".data ++ b.type.data ++ ['\n'] else []) ++
    (if b.price ≠ "" then "价格: ".data ++ b.price.data ++ "元".data ++ ['\n'] else []) ++
    (if b.flavor ≠ [] then "风味标签: ".data ++ (String.intercalate ", " b.flavor).data ++ ['\n']
     else []) ++
    (if b.blendComponents ≠ [] then "\n拼配成分:\n".data ++ blendLinesChars 0 b.blendComponents
     else []) ++
    (if b.notes ≠ "" then "\n备注: ".data ++ b.notes.data ++ ['\n'] else []) ++
    "\n--- 复制以上内容可分享和导入 ---".data ++
    "\n\n@DATA_TYPE:COFFEE_BEAN@".data

/-- Embedding of `beanToReadableText`. -/
def beanToReadableText (b : BeanInput) : String :=
  String.mk (beanChars b)

/-! ### Text parser (`parseCoffeeBeanText`, `parseMethodText`, `parseBrewingNoteText`) -/

/-- The part of the blend-component regex `\d+\.\s*(.*?)\s*\((\d+)%\)` after
`\d+\.\s*`: find the first `(` on the current line (the lazy `(.*?)` cannot
cross a newline) that is followed by a nonempty digit run and the literal
`%)`; return the characters before it (the engine then strips the trailing
whitespace, which `jsTrim` in the caller reproduces), the parsed percentage,
and the remainder after the match. -/
def findParen : List Char → Option (List Char × Nat × List Char)
  | [] => none
  | c :: cs =>
    if c = '\n' then none
    else if c = '(' then
      let ds := cs.takeWhile Char.isDigit
      if ds ≠ [] ∧ ['%', ')'].isPrefixOf (cs.drop ds.length) then
        some ([], digitsToNat ds, cs.drop (ds.length + 2))
      else (findParen cs).map (fun r => (c :: r.1, r.2.1, r.2.2))
    else (findParen cs).map (fun r => (c :: r.1, r.2.1, r.2.2))

/-- First match of the blend-component regex `\d+\.\s*(.*?)\s*\((\d+)%\)`:
scan positions left to right; a position matches when it starts a maximal
digit run followed by `.`, optional whitespace (greedy `\s*`, may cross
newlines), and a parenthesised percentage on the resulting line.  The
component name is the trimmed group 1 (the source re-matches each global
match and applies `.trim()`). -/
def blendStep : List Char → Option ((String × Nat) × List Char)
  | [] => none
  | c :: cs =>
    (let here := c :: cs
     let ds := here.takeWhile Char.isDigit
     if ds ≠ [] ∧ (here.drop ds.length).head? = some '.' then
       let r2 := (here.drop (ds.length + 1)).dropWhile jsWS
       match findParen r2 with
       | some (before, pct, rest) => some ((String.mk (jsTrim before), pct), rest)
       | none => blendStep cs
     else blendStep cs)

/-- All matches of the blend-component regex (the `/g` loop), with fuel for
termination; called with the section length as fuel, which suffices since
every match consumes at least one character. -/
def blendLoop : Nat → List Char → List (String × Nat)
  | 0, _ => []
  | fuel + 1, cs =>
    match blendStep cs with
    | some (comp, rest) => comp :: blendLoop fuel rest
    | none => []

/-- Embedding of `parseCoffeeBeanText`.  `text.split(p)[1]` is the segment of
`text` between the first and second occurrences of `p`, modelled by
`takeUntil p` after `dropAfter p`. -/
def parseCoffeeBeanText (text : String) : ParsedBean :=
  let cs := text.data
  let opt := fun (lab : String) =>
    match labeledValue lab.data cs with
    | some v => if v ≠ [] then some (String.mk (jsTrim v)) else none
    | none => none
  let name := match markerValue "【咖啡豆】".data cs with
    | some v => if v ≠ [] then String.mk (jsTrim v) else ""
    | none => ""
  let capacity := match scanDigits "容量:".data true ['g'] cs with
    | some ds => String.mk ds
    | none => ""
  let remaining := match scanDigits "剩余".data false ['g'] cs with
    | some ds => String.mk ds
    | none => capacity
  let roastLevel := match labeledValue "烘焙度:".data cs with
    | some v => if v ≠ [] ∧ v ≠ "未知".data then String.mk (jsTrim v) else "浅度烘焙"
    | none => "浅度烘焙"
  let flavor := match labeledValue "风味标签:".data cs with
    | some v => if v ≠ [] then (splitOnChar ',' v).map (fun f => String.mk (jsTrim f)) else []
    | none => []
  let blend :=
    if hasOcc "拼配成分:".data cs then
      let r := (dropAfter "拼配成分:".data cs).getD []
      let sect := takeUntil "\n---".data (takeUntil "拼配成分:".data r)
      some ((blendLoop sect.length sect).map (fun c => BlendComp.mk c.1 c.2))
    else none
  { name := name, capacity := capacity, remaining := remaining, roastLevel := roastLevel
    flavor := flavor
    roastDate := opt "烘焙日期:", origin := opt "产地:", process := opt "处理法:"
    variety := opt "品种:", type := opt "类型:"
    price := (scanDigits "价格:".data true "元".data cs).map String.mk
    notes := opt "备注:"
    blendComponents := blend }

/-- Anchored check `^\d+\.\s*\[.*?\]` applied to a step line (lines contain
no newline, so `.` is unrestricted). -/
def headerCheckB (line : List Char) : Bool :=
  let ds := line.takeWhile Char.isDigit
  let r0 := line.drop ds.length
  let r2 := r0.tail.dropWhile jsWS
  !ds.isEmpty && decide (r0.head? = some '.') && decide (r2.head? = some '[') &&
    r2.tail.contains ']'

/-- Attempted match of `\d+\.\s*\[(\d+)分(\d+)秒\]\s*(.*?)\s*-\s*(.*?)(?:\n|$)`
anchored at the start of the given suffix: digits, `.`, optional whitespace,
the bracketed `分/秒` time, then the first `-` splits the lazily-captured
label (whitespace-stripped on both sides, as the surrounding `\s*` and the
source's `.trim()` produce) from the remainder, which is the trimmed water. -/
def stageAt (line : List Char) : Option (Nat × Nat × List Char × List Char) :=
  let ds := line.takeWhile Char.isDigit
  if ds.isEmpty then none
  else
    let r0 := line.drop ds.length
    if r0.head? ≠ some '.' then none
    else
      let r2 := r0.tail.dropWhile jsWS
      if r2.head? ≠ some '[' then none
      else
        let r3 := r2.tail
        let ms := r3.takeWhile Char.isDigit
        if ms.isEmpty then none
        else
          let r4h := r3.drop ms.length
          if r4h.head? ≠ some '分' then none
          else
            let r4 := r4h.tail
            let ss := r4.takeWhile Char.isDigit
            if ss.isEmpty then none
            else
              let r5 := r4.drop ss.length
              if r5.head? ≠ some '秒' then none
              else if r5.tail.head? ≠ some ']' then none
              else
                let r6 := r5.tail.tail
                let g3 := r6.takeWhile (· ≠ '-')
                let r7h := r6.drop g3.length
                if r7h.head? ≠ some '-' then none
                else some (digitsToNat ms, digitsToNat ss, jsTrim g3, jsTrim r7h.tail)

/-- First match of the step-header regex in a line: the JS engine scans
candidate start positions left to right. -/
def scanStage : List Char → Option (Nat × Nat × List Char × List Char)
  | [] => none
  | c :: cs =>
    match stageAt (c :: cs) with
    | some r => some r
    | none => scanStage cs

/-- Model of `s.startsWith(" ")`. -/
def startsWithSpace (l : List Char) : Bool :=
  decide (l.head? = some ' ')

/-- The detail peek of the step scan: does the *trimmed* next line start with
a space?  (This is the source's `stageLines[i + 1].trim().startsWith(" ")`.) -/
def detailPeek (rest : List (List Char)) : Bool :=
  match rest with
  | next :: _ => startsWithSpace (jsTrim next)
  | [] => false

/-- The detail text consumed by a successful peek (trimmed next line). -/
def peekDetail (rest : List (List Char)) : List Char :=
  if detailPeek rest then jsTrim (rest.headD []) else []

/-- The remaining lines after a step: the peeked detail line is skipped. -/
def restAfterPeek (rest : List (List Char)) : List (List Char) :=
  if detailPeek rest then rest.tail else rest

/-- The stage object built for one matched step header.  When the peek fails
the source leaves `detail = ""` and `pourType` starts at "circle"; passing
`detail = []` here produces the same result, since the keyword checks on an
empty detail all fail. -/
def stageFromMatch (mins secs : Nat) (g3 g4 detail : List Char) : Stage :=
  let time := mins * 60 + secs
  let pour1 : String :=
    if hasOcc "中心".data detail || hasOcc "中央".data detail then "center"
    else if hasOcc "冰块".data detail || hasOcc "冰".data detail then "ice"
    else "circle"
  let pour2 : String :=
    if pour1 = "circle" then
      if hasOcc "中心".data g3 then "center"
      else if hasOcc "冰块".data g3 || hasOcc "冰".data g3 then "ice"
      else "circle"
    else pour1
  { time := time
    pourTime := min 20 ((time + 3) / 4)
    label := String.mk g3
    water := String.mk g4
    detail := String.mk detail
    pourType := pour2
    valveStatus := "" }

/-- The step-list scan of `parseMethodText` over the nonblank lines of the
step section.  On a line that passes the anchored header check and the full
header regex, the source peeks at the next line (detail consumption), then
infers the pour type and reconstructs `pourTime` as
`Math.min(20, Math.ceil(time * 0.25))` — exact for naturals since 0.25 is a
power of two, hence `(time + 3) / 4`.  The built stage object has no
`valveStatus` property (JS `undefined`), modelled as `""`. -/
def stagesLoopAux : Nat → List (List Char) → List Stage
  | 0, _ => []
  | fuel + 1, lines =>
    match lines with
    | [] => []
    | line :: rest =>
      if headerCheckB line then
        match scanStage line with
        | some (mins, secs, g3, g4) =>
          stageFromMatch mins secs g3 g4 (peekDetail rest) ::
            stagesLoopAux fuel (restAfterPeek rest)
        | none => stagesLoopAux fuel rest
      else stagesLoopAux fuel rest

/-- The step scan, with the line count as fuel (the index advances by at
least one per iteration, so this is exact). -/
def stagesLoop (lines : List (List Char)) : List Stage :=
  stagesLoopAux lines.length lines

/-- First match of `@METHOD_ID:(method-[a-zA-Z0-9-]+)@`: at each occurrence of
the literal `@METHOD_ID:method-`, the greedy character class takes the maximal
run of id characters, which must be nonempty and followed by `@`. -/
def findMethodId : List Char → Option (List Char)
  | [] => none
  | c :: cs =>
    (if "@METHOD_ID:method-".data.isPrefixOf (c :: cs) then
      let r := (c :: cs).drop "@METHOD_ID:method-".data.length
      let run := r.takeWhile (fun ch => ch.isAlphanum || ch = '-')
      if !run.isEmpty && ((r.drop run.length).head? = some '@' : Bool) then
        some ("method-".data ++ run)
      else findMethodId cs
    else findMethodId cs)

/-- Embedding of `parseMethodText`.  The method id defaults to
`method-<Date.now()>` but is overwritten by an embedded `@METHOD_ID:...@` tag;
scalar params fall back to `""` when missing, empty or the sentinel 未设置. -/
def parseMethodText (text : String) (now : Nat) : Method :=
  let cs := text.data
  let name :=
    match markerValue "【冲煮方案】".data cs with
    | some v => if v ≠ [] then String.mk (jsTrim v) else ""
    | none => ""
  let pfield := fun (lab : String) =>
    match labeledValue lab.data cs with
    | some v => if v ≠ [] ∧ v ≠ "未设置".data then String.mk (jsTrim v) else ""
    | none => ""
  let mid :=
    match findMethodId cs with
    | some i => String.mk i
    | none => "method-" ++ natToStr now
  let stages :=
    if hasOcc "冲煮步骤:".data cs then
      let r := (dropAfter "冲煮步骤:".data cs).getD []
      let sect := takeUntil "\n---".data (takeUntil "冲煮步骤:".data r)
      stagesLoop ((splitOnChar '\n' sect).filter (fun l => !(jsTrim l).isEmpty))
    else []
  { id := mid
    name := name
    params :=
      { coffee := pfield "咖啡粉量:", water := pfield "水量:", ratio := pfield "比例:"
        grindSize := pfield "研磨度:", temp := pfield "水温:", videoUrl := ""
        stages := stages } }

/-- Embedding of `parseBrewingNoteText`. -/
def parseBrewingNoteText (text : String) (now : Nat) : BrewingNote :=
  let cs := text.data
  let sfield := fun (lab : String) =>
    match labeledValue lab.data cs with
    | some v => if v ≠ [] ∧ v ≠ "未设置".data then String.mk (jsTrim v) else ""
    | none => ""
  let nfield := fun (lab : String) =>
    match scanDigits lab.data true "/5".data cs with
    | some ds => digitsToNat ds
    | none => 0
  let hasParams := hasOcc "参数设置:".data cs
  let hasTaste := hasOcc "风味评分:".data cs
  let notes :=
    if hasOcc "笔记:".data cs then
      let r := (dropAfter "笔记:".data cs).getD []
      String.mk (jsTrim (takeUntil "\n---".data (takeUntil "笔记:".data r)))
    else ""
  { id := "note-" ++ natToStr now
    equipment := sfield "设备:"
    method := sfield "方法:"
    beanName := sfield "咖啡豆:"
    beanRoastLevel := sfield "烘焙度:"
    coffee := if hasParams then sfield "咖啡粉量:" else ""
    water := if hasParams then sfield "水量:" else ""
    ratio := if hasParams then sfield "比例:" else ""
    grindSize := if hasParams then sfield "研磨度:" else ""
    temp := if hasParams then sfield "水温:" else ""
    taste :=
      if hasTaste then
        ⟨nfield "酸度:", nfield "甜度:", nfield "苦度:", nfield "醇厚度:"⟩
      else ⟨0, 0, 0, 0⟩
    rating := nfield "综合评分:"
    notes := notes }

/-! ### JSON codec (`parseMethodFromJson`) -/

/-- Whether a JSON value is `null`. -/
def Json.isNull : Json → Bool
  | .null => true
  | _ => false

/-- Whether a JSON value is an array (`Array.isArray`). -/
def Json.isArr : Json → Bool
  | .arr _ => true
  | _ => false

/-- The elements of a JSON array. -/
def Json.arrElems : Json → List Json
  | .arr l => l
  | _ => []

/-- Normalization of one stage entry by `parseMethodFromJson`.  A `null`
entry makes the JS property accesses throw (`none`); otherwise `pourType` is
coerced into the four-value enum ("spiral" and every other unrecognized value
become "circle") and `valveStatus` into open/closed/empty. -/
def stageOfJson (j : Json) : Option Stage :=
  match j with
  | .null => none
  | _ =>
    let pt0 := strOr (j.lookup "pourType") "circle"
    let pourType :=
      if ["center", "circle", "ice", "other"].contains pt0 then pt0
      else if pt0 = "spiral" then "circle"
      else "circle"
    let vs0 := strOr (j.lookup "valveStatus") ""
    let valveStatus := if vs0 ≠ "" ∧ ¬ ["open", "closed"].contains vs0 = true then "" else vs0
    some
      { time := natOr0 (j.lookup "time")
        pourTime := natOr0 (j.lookup "pourTime")
        label := strOr (j.lookup "label") ""
        water := strOr (j.lookup "water") ""
        detail := strOr (j.lookup "detail") ""
        pourType := pourType
        valveStatus := valveStatus }

/-- The `stages.map(...)` call: normalize each entry in order; a thrown
`TypeError` (null entry) aborts the whole conversion. -/
def mapStages : List Json → Option (List Stage)
  | [] => some []
  | j :: t =>
    match stageOfJson j with
    | none => none
    | some st =>
      match mapStages t with
      | none => none
      | some sts => some (st :: sts)

/-- Body of `parseMethodFromJson` on a successfully parsed non-null document. -/
def mfjBody (d : Json) (now : Nat) (rand : String) : Option Method :=
    let m := d.lookup "method"
    let e := d.lookup "equipment"
    if ¬ jsTruthy m ∧ ¬ jsTruthy e then none
    else
      let p := d.lookup "params"
      let stagesJ := optChain p "stages"
      let stagesR : Option (List Stage) :=
        if jsTruthy stagesJ ∧ (stagesJ.getD Json.null).isArr = true then
          mapStages (stagesJ.getD Json.null).arrElems
        else some []
      match stagesR with
      | none => none
      | some stages =>
        if stages.isEmpty then none
        else some
          { id := natToStr now ++ "-" ++ rand
            name := if jsTruthy m then jsInterp m else jsInterp e ++ "优化方案"
            params :=
              { coffee := strOr (optChain p "coffee") "15g"
                water := strOr (optChain p "water") "225g"
                ratio := strOr (optChain p "ratio") "1:15"
                grindSize := strOr (optChain p "grindSize") "中细"
                temp := strOr (optChain p "temp") "92°C"
                videoUrl := strOr (optChain p "videoUrl") ""
                stages := stages } }

/-- Embedding of `parseMethodFromJson` (the `JSON.parse` step is the `jp`
parameter; `now`/`rand` stand for `Date.now()` and the random base-36 suffix).
Every throw inside the source's `try` block yields `none`: a failed parse, a
null document (property access on `null` throws), a missing truthy
`method`/`equipment`, a null stage entry, or an empty normalized stage list. -/
def parseMethodFromJson (jp : String → Option Json) (s : String) (now : Nat)
    (rand : String) : Option Method :=
  match jp s with
  | none => none
  | some .null => none
  | some d => mfjBody d now rand

/-! ### Dispatcher (`extractJsonFromText`) -/

/-- Result of the dispatcher: raw JSON, or one of the three parsed records. -/
inductive ExtractResult where
  | json (j : Json)
  | bean (b : ParsedBean)
  | method (m : Method)
  | note (n : BrewingNote)
deriving Repr

/-- First match of `<!--JSON_DATA:([^]*?)-->` with a truthy (nonempty) group:
the lazy group captures everything between the first occurrence of
`<!--JSON_DATA:` and the first `-->` after it. -/
def jsonDataBlock (cs : List Char) : Option String :=
  match dropAfter "<!--JSON_DATA:".data cs with
  | none => none
  | some r =>
    if hasOcc "-->".data r then
      let body := takeUntil "-->".data r
      if body.isEmpty then none else some (String.mk body)
    else none

/-- Embedding of `extractJsonFromText`: raw JSON first, then the legacy
embedded block (whose parse failure aborts with `null`), then the hidden type
markers, then the human-readable section headers. -/
def extractJsonFromText (jp : String → Option Json) (text : String) (now : Nat) :
    Option ExtractResult :=
  match jp text with
  | some j => some (.json j)
  | none =>
    match jsonDataBlock text.data with
    | some body => (jp body).map .json
    | none =>
      if hasOcc "@DATA_TYPE:COFFEE_BEAN@".data text.data then
        some (.bean (parseCoffeeBeanText text))
      else if hasOcc "@DATA_TYPE:BREWING_METHOD@".data text.data then
        some (.method (parseMethodText text now))
      else if hasOcc "@DATA_TYPE:BREWING_NOTE@".data text.data then
        some (.note (parseBrewingNoteText text now))
      else if hasOcc "【咖啡豆】".data text.data then
        some (.bean (parseCoffeeBeanText text))
      else if hasOcc "【冲煮方案】".data text.data then
        some (.method (parseMethodText text now))
      else if hasOcc "【冲煮记录】".data text.data then
        some (.note (parseBrewingNoteText text now))
      else none

/-- `Blocks pat A` says that no occurrence of `pat` can start inside `A`,
whatever text follows `A`. -/
def Blocks (pat A : List Char) : Prop :=
  ∀ B A₂, A₂ <:+ A → A₂ ≠ [] → ¬ pat <+: (A₂ ++ B)

/-- Decidable sufficient condition for `Blocks` on a concrete chunk: every
nonempty suffix either disagrees with the corresponding prefix of `pat`
(when shorter than `pat`) or does not start with `pat`. -/
def blocksB (pat A : List Char) : Bool :=
  A.tails.all fun A₂ =>
    A₂.isEmpty ||
      (if A₂.length < pat.length then decide (A₂ ≠ pat.take A₂.length)
       else !pat.isPrefixOf A₂)

/-! ### Trim lemmas -/

/-- Drop trailing whitespace; `jsTrim` is this after dropping the leading run. -/
def dropTrailingWS (l : List Char) : List Char :=
  (l.reverse.dropWhile jsWS).reverse

/-- Input document for the C2 witness. -/
def jpC2 : String → Option Json := fun _ =>
  some (Json.obj [("method", Json.str "X"),
                  ("params", Json.obj [("stages", Json.arr [Json.obj []])])])

/-- Method produced from `jpC2` at `now = 3`, `rand = "r"`. -/
def mC2 : Method :=
  ⟨"3-r", "X", ⟨"15g", "225g", "1:15", "中细", "92°C", "",
    [⟨0, 0, "", "", "", "circle", ""⟩]⟩⟩

/-- Input document for the C6 witness: a stage with `pourType: "spiral"` and
`valveStatus: "halfopen"`. -/
def jpC6 : String → Option Json := fun _ =>
  some (Json.obj [("method", Json.str "X"),
    ("params", Json.obj [("stages", Json.arr
      [Json.obj [("time", Json.num 30), ("pourType", Json.str "spiral"),
                 ("valveStatus", Json.str "halfopen")]])])])

/-- Method produced from `jpC6`. -/
def mC6 : Method :=
  ⟨"0-r", "X", ⟨"15g", "225g", "1:15", "中细", "92°C", "",
    [⟨30, 0, "", "", "", "circle", ""⟩]⟩⟩

/-- The stages value `parseMethodFromJson` reads (`parsedData.params?.stages`). -/
def jsonStagesSrc (d : Json) : Option Json :=
  optChain (d.lookup "params") "stages"

/-- Exact failure condition of `parseMethodFromJson` on the outcome of
`JSON.parse`: a parse exception, a null document, a document with neither a
truthy `method` nor a truthy `equipment` value, or a failing stage list — a
valid stages array that is empty or has a null entry, or anything else (no
stages array at all leaves the normalized list empty). -/
def methodImportFails (o : Option Json) : Prop :=
  o = none ∨ o = some Json.null ∨
    ∃ d, o = some d ∧
      ((jsTruthy (d.lookup "method") = false ∧ jsTruthy (d.lookup "equipment") = false) ∨
        (if jsTruthy (jsonStagesSrc d) ∧ ((jsonStagesSrc d).getD Json.null).isArr = true then
          Json.null ∈ ((jsonStagesSrc d).getD Json.null).arrElems ∨
            ((jsonStagesSrc d).getD Json.null).arrElems = []
        else True))

/-- Input document for the C5 counterexample: a present-but-empty `method`
field with a valid nonempty stages array. -/
def jpC5 : String → Option Json := fun _ =>
  some (Json.obj [("method", Json.str ""),
    ("params", Json.obj [("stages", Json.arr [Json.obj [("time", Json.num 30)]])])])

/-- The parsed C5 counterexample document. -/
def dC5 : Json :=
  Json.obj [("method", Json.str ""),
    ("params", Json.obj [("stages", Json.arr [Json.obj [("time", Json.num 30)]])])]

/-- Witness for C5: an unparseable input fails, and a minimal valid document
with `"params": {}` gets every scalar default. -/
def jpC5w : String → Option Json := fun t =>
  if t = "bad" then none
  else some (Json.obj [("method", Json.str "X"),
    ("params", Json.obj [("stages", Json.arr [Json.obj []])])])

/-- The document produced by `jpC5w` on a good input. -/
def dC5w : Json :=
  Json.obj [("method", Json.str "X"),
    ("params", Json.obj [("stages", Json.arr [Json.obj []])])]

/-- Method produced from `jpC5w` on a good input. -/
def mC5w : Method :=
  ⟨"0-r", "X", ⟨"15g", "225g", "1:15", "中细", "92°C", "",
    [⟨0, 0, "", "", "", "circle", ""⟩]⟩⟩

/-- The tail of a formatted method text after the 咖啡粉量 parameter line. -/
def methodTailChars (m : Method) : List Char :=
  paramLineChars "水量: " m.params.water ++
    paramLineChars "比例: " m.params.ratio ++
    paramLineChars "研磨度: " m.params.grindSize ++
    paramLineChars "水温: " m.params.temp ++
    (if m.params.stages ≠ [] then "\n冲煮步骤:\n\n".data ++ stageBlocks 0 m.params.stages
     else []) ++
    "--- 复制以上内容可分享和导入 ---".data ++
    "\n\n@DATA_TYPE:BREWING_METHOD@".data

/-- The prefix of a formatted bean text before the 拼配成分 section (grouped
for chunk-by-chunk occurrence analysis). -/
def beanPreChars (b : BeanInput) : List Char :=
  "【咖啡豆】".data ++
    ((b.name.data ++ ['\n']) ++
      ("容量: ".data ++
        ((b.capacity.data ++ ['g']) ++
          ((if b.remaining ≠ b.capacity then
              " (剩余".data ++ (b.remaining.data ++ "g)".data)
            else []) ++
            (['\n'] ++
              ("烘焙度: ".data ++
                (((if b.roastLevel = "" then "未知".data else b.roastLevel.data) ++ ['\n']) ++
                  ((if b.roastDate ≠ "" then "烘焙日期: ".data ++ (b.roastDate.data ++ ['\n'])
                    else []) ++
                    ((if b.origin ≠ "" then "产地: ".data ++ (b.origin.data ++ ['\n'])
                      else []) ++
                      ((if b.process ≠ "" then "处理法: ".data ++ (b.process.data ++ ['\n'])
                        else []) ++
                        ((if b.variety ≠ "" then "品种: ".data ++ (b.variety.data ++ ['\n'])
                          else []) ++
                          ((if b.type ≠ "" then "类型: ".data ++ (b.type.data ++ ['\n'])
                            else []) ++
                            ((if b.price ≠ "" then
                                "价格: ".data ++ (b.price.data ++ ("元".data ++ ['\n']))
                              else []) ++
                              (if b.flavor ≠ [] then
                                "风味标签: ".data ++
                                  ((String.intercalate ", " b.flavor).data ++ ['\n'])
                              else []))))))))))))))

/-- The suffix of a formatted bean text after the blend-component lines. -/
def beanPostChars (b : BeanInput) : List Char :=
  (if b.notes ≠ "" then "\n备注: ".data ++ b.notes.data ++ ['\n'] else []) ++
    "\n--- 复制以上内容可分享和导入 ---".data ++
    "\n\n@DATA_TYPE:COFFEE_BEAN@".data

/-- A concrete blend bean for the C9 witness. -/
def beanC9 : BeanInput :=
  ⟨"招牌拼配", "200", "200", "中度烘焙", "", [], "", "", "", "", "", "",
    [⟨60, "埃塞俄比亚", "水洗", ""⟩, ⟨40, "哥伦比亚", "", "卡杜拉"⟩]⟩

/-- No occurrence of `pat` can start inside `A` when the text continues with
exactly `C` (a one-continuation refinement of `Blocks`, needed when `A` ends
with a prefix of `pat`). -/
def BlocksIn (pat A C : List Char) : Prop :=
  ∀ A₂, A₂ <:+ A → A₂ ≠ [] → ¬ pat <+: (A₂ ++ C)

/-- The concatenated step blocks with the very last blank-line newline split
off (the parser's `split("\n---")` pattern consumes that newline together with
the footer's leading dashes). -/
def stageBlocksInit (idx : Nat) : List Stage → List Char
  | [] => []
  | [st] =>
    stageLineChars idx st ++ ('\n' ::
      (if st.detail ≠ "" then "   ".data ++ (st.detail.data ++ ['\n']) else []))
  | st :: st₂ :: rest =>
    stageLineChars idx st ++ ('\n' ::
      ((if st.detail ≠ "" then "   ".data ++ (st.detail.data ++ ['\n']) else []) ++
        ('\n' :: stageBlocksInit (idx + 1) (st₂ :: rest))))

/-- Grouped prefix of a formatted method text before the step-section label
冲煮步骤:. -/
def methodPreChars (m : Method) : List Char :=
  "【冲煮方案】".data ++
    ((m.name.data ++ ['\n']) ++
      (['\n'] ++
        ("咖啡粉量: ".data ++
          (((if m.params.coffee = "" then "未设置".data else m.params.coffee.data) ++
              ['\n']) ++
            ("水量: ".data ++
              (((if m.params.water = "" then "未设置".data else m.params.water.data) ++
                  ['\n']) ++
                ("比例: ".data ++
                  (((if m.params.ratio = "" then "未设置".data else m.params.ratio.data) ++
                      ['\n']) ++
                    ("研磨度: ".data ++
                      (((if m.params.grindSize = "" then "未设置".data
                          else m.params.grindSize.data) ++ ['\n']) ++
                        ("水温: ".data ++
                          (((if m.params.temp = "" then "未设置".data
                              else m.params.temp.data) ++ ['\n']) ++
                            ['\n']))))))))))))

/-- The footer of a formatted method text. -/
def methodFootChars : List Char :=
  "--- 复制以上内容可分享和导入 ---".data ++ "\n\n@DATA_TYPE:BREWING_METHOD@".data

/-- The nonblank lines of the formatted step section: the header line of each
stage followed by its indented detail line when the detail is nonempty. -/
def linesOf (idx : Nat) : List Stage → List (List Char)
  | [] => []
  | st :: rest =>
    stageLineChars idx st ::
      ((if st.detail ≠ "" then ["   ".data ++ st.detail.data] else []) ++
        linesOf (idx + 1) rest)

/-- The stage reconstructed by the parser from a formatter-produced header
line: same time and water, the label decorated and trimmed, empty detail. -/
def parsedOf (st : Stage) : Stage :=
  stageFromMatch (st.time / 60) (st.time % 60)
    (jsTrim (pourTimeDeco st ++ (pourTypeDeco st ++ ' ' :: st.label.data)))
    st.water.data []

/-- A JSON parser that fails on every input (the formatted method text is not
valid JSON). -/
def jpC1 : String → Option Json := fun _ => none

/-- A concrete method whose single stage has a truthy pourTime and pourType,
so the formatter decorates its header line. -/
def mC1 : Method :=
  ⟨"m1", "测试方案", ⟨"15g", "225g", "1:15", "中细", "92°C", "",
    [⟨30, 8, "绕圈", "45g", "", "circle", ""⟩]⟩⟩

/-! ## Theorems -/

theorem restAfterPeek_length (rest : List (List Char)) :
    (restAfterPeek rest).length ≤ rest.length := by
  unfold restAfterPeek
  split
  · rw [List.length_tail]
    omega
  · exact le_refl _

/-! ### Lemmas about the scanning primitives -/

theorem dropAfter_self {pat : List Char} (hpat : pat ≠ []) (B : List Char) :
    dropAfter pat (pat ++ B) = some B := by
  match pat, hpat with
  | p :: pr, _ =>
    rw [List.cons_append, dropAfter]
    rw [if_pos (by rw [List.isPrefixOf_iff_prefix]; exact ⟨B, by simp⟩)]
    simp [List.drop_left]

theorem blocks_nil (pat : List Char) : Blocks pat [] := by
  intro B A₂ h h2
  rw [List.suffix_nil] at h
  exact absurd h h2

theorem suffix_append_cases {A A' A₂ : List Char} (h : A₂ <:+ A ++ A') :
    A₂ <:+ A' ∨ ∃ s, A₂ = s ++ A' ∧ s <:+ A ∧ s ≠ [] := by
  induction A with
  | nil => left; simpa using h
  | cons a t ih =>
    rw [List.cons_append, List.suffix_cons_iff] at h
    rcases h with rfl | h
    · right; exact ⟨a :: t, rfl, List.suffix_rfl, by simp⟩
    · rcases ih h with h1 | ⟨s, rfl, hs, hne⟩
      · left; exact h1
      · right; exact ⟨s, rfl, hs.trans (List.suffix_cons a t), hne⟩

theorem Blocks.append {pat A A' : List Char} (h1 : Blocks pat A) (h2 : Blocks pat A') :
    Blocks pat (A ++ A') := by
  intro B A₂ hsuf hne
  rcases suffix_append_cases hsuf with h | ⟨s, rfl, hs, hsne⟩
  · exact h2 B A₂ h hne
  · rw [List.append_assoc]
    exact h1 (A' ++ B) s hs hsne

theorem blocks_of_head_not_mem {p₀ : Char} {pr A : List Char} (h : p₀ ∉ A) :
    Blocks (p₀ :: pr) A := by
  intro B A₂ hsuf hne
  match A₂, hne with
  | a :: t, _ =>
    rw [List.cons_append, List.cons_prefix_cons]
    rintro ⟨rfl, -⟩
    exact h (List.Sublist.mem (List.mem_cons_self _ _) hsuf.sublist)

theorem prefix_append_split {pat s Y : List Char} (h : pat <+: s ++ Y)
    (hle : s.length ≤ pat.length) : s <+: pat ∧ pat.drop s.length <+: Y := by
  have hp : pat = s ++ Y.take (pat.length - s.length) := by
    have h1 := List.prefix_iff_eq_take.mp h
    conv_lhs => rw [h1, List.take_append_eq_append_take, List.take_of_length_le hle]
  refine ⟨⟨_, hp.symm⟩, ?_⟩
  rw [hp, List.drop_left]
  exact List.take_prefix _ _

theorem prefix_of_prefix_append {pat A₂ B : List Char} (h : pat <+: A₂ ++ B)
    (hle : pat.length ≤ A₂.length) : pat <+: A₂ := by
  have h1 := List.prefix_iff_eq_take.mp h
  rw [List.take_append_eq_append_take] at h1
  have h2 : pat.length - A₂.length = 0 := by omega
  rw [h2, List.take_zero, List.append_nil] at h1
  exact h1 ▸ List.take_prefix _ _

/-- A variable chunk `v` that does not contain `pat` as an infix blocks all
occurrences when the following text starts with a character not occurring in
`pat`. -/
theorem blocks_var_then {pat v : List Char} {c : Char} {L : List Char}
    (hsub : ¬ pat <:+: v) (hc : c ∉ pat) (hnext : Blocks pat (c :: L)) :
    Blocks pat (v ++ c :: L) := by
  intro B A₂ hsuf hne
  rcases suffix_append_cases hsuf with h | ⟨s, rfl, hs, hsne⟩
  · exact hnext B A₂ h hne
  · intro hpre
    rw [List.append_assoc] at hpre
    rcases le_or_lt pat.length s.length with hle | hlt
    · exact hsub (List.infix_iff_prefix_suffix.mpr
        ⟨s, prefix_of_prefix_append hpre hle, hs⟩)
    · have hsp := prefix_append_split hpre (le_of_lt hlt)
      have hdropne : pat.drop s.length ≠ [] := by
        intro h0
        have := congrArg List.length h0
        simp at this
        omega
      match hd : pat.drop s.length, hdropne with
      | q :: qr, _ =>
        rw [hd] at hsp
        have : q = c := by
          have := hsp.2
          rw [List.cons_append, List.cons_prefix_cons] at this
          exact this.1
        subst this
        exact hc (List.mem_of_mem_drop (hd ▸ List.mem_cons_self q qr))

theorem blocks_of_blocksB {pat A : List Char} (h : blocksB pat A = true) : Blocks pat A := by
  intro B A₂ hsuf hne hpre
  have hmem : A₂ ∈ A.tails := (List.mem_tails _ _).mpr hsuf
  have hcond := List.all_eq_true.mp h A₂ hmem
  rw [Bool.or_eq_true] at hcond
  rcases hcond with hemp | hcond
  · exact hne (List.isEmpty_iff.mp hemp)
  · by_cases hlen : A₂.length < pat.length
    · rw [if_pos hlen, decide_eq_true_eq] at hcond
      have hsp := prefix_append_split hpre (le_of_lt hlen)
      exact hcond (List.prefix_iff_eq_take.mp hsp.1)
    · rw [if_neg hlen, Bool.not_eq_eq_eq_not, Bool.not_true, ← Bool.not_eq_true,
        List.isPrefixOf_iff_prefix] at hcond
      push_neg at hlen
      exact hcond (prefix_of_prefix_append hpre hlen)

/-- With a blocking prefix, the first occurrence of `pat` is found in the
remainder. -/
theorem dropAfter_of_blocks {pat A : List Char} (h : Blocks pat A) (B : List Char) :
    dropAfter pat (A ++ B) = dropAfter pat B := by
  induction A with
  | nil => rfl
  | cons a t ih =>
    rw [List.cons_append, dropAfter]
    rw [if_neg ?_]
    · exact ih fun B' A₂ hsuf hne => h B' A₂ (hsuf.trans (List.suffix_cons a t)) hne
    · intro hpre
      rw [List.isPrefixOf_iff_prefix] at hpre
      exact h B (a :: t) List.suffix_rfl (by simp) (by simpa using hpre)

theorem takeUntil_of_blocks {pat A : List Char} (h : Blocks pat A) (B : List Char) :
    takeUntil pat (A ++ B) = A ++ takeUntil pat B := by
  induction A with
  | nil => rfl
  | cons a t ih =>
    rw [List.cons_append, takeUntil]
    rw [if_neg ?_]
    · rw [ih fun B' A₂ hsuf hne => h B' A₂ (hsuf.trans (List.suffix_cons a t)) hne]
      rfl
    · intro hpre
      rw [List.isPrefixOf_iff_prefix] at hpre
      exact h B (a :: t) List.suffix_rfl (by simp) (by simpa using hpre)

theorem takeUntil_self {pat : List Char} (hpat : pat ≠ []) (B : List Char) :
    takeUntil pat (pat ++ B) = [] := by
  match pat, hpat with
  | p :: pr, _ =>
    rw [List.cons_append, takeUntil]
    rw [if_pos (by rw [List.isPrefixOf_iff_prefix]; exact ⟨B, by simp⟩)]

theorem takeUntil_of_no_occurrence {pat l : List Char} (h : dropAfter pat l = none) :
    takeUntil pat l = l := by
  induction l with
  | nil => rfl
  | cons a t ih =>
    rw [dropAfter] at h
    rw [takeUntil]
    by_cases hp : pat.isPrefixOf (a :: t)
    · rw [if_pos hp] at h
      exact absurd h (by simp)
    · rw [if_neg hp] at h
      rw [if_neg hp, ih h]

theorem mem_of_mem_takeUntil {pat l : List Char} {c : Char} (h : c ∈ takeUntil pat l) :
    c ∈ l := by
  induction l with
  | nil => exact absurd h (by simp [takeUntil])
  | cons a t ih =>
    rw [takeUntil] at h
    by_cases hp : pat.isPrefixOf (a :: t)
    · rw [if_pos hp] at h
      exact absurd h (by simp)
    · rw [if_neg hp] at h
      rcases List.mem_cons.mp h with rfl | h
      · exact List.mem_cons_self _ _
      · exact List.mem_cons_of_mem _ (ih h)

theorem dropAfter_mem {pat l r : List Char} {c : Char} (h : dropAfter pat l = some r)
    (hc : c ∈ r) : c ∈ l := by
  induction l with
  | nil => exact absurd h (by simp [dropAfter])
  | cons a t ih =>
    rw [dropAfter] at h
    by_cases hp : pat.isPrefixOf (a :: t)
    · rw [if_pos hp] at h
      have hr : r = (a :: t).drop pat.length := (Option.some.inj h).symm
      subst hr
      exact List.mem_of_mem_drop hc
    · rw [if_neg hp] at h
      exact List.mem_cons_of_mem _ (ih h)

theorem not_isPrefixOf_cons_of_head_ne {p c : Char} {pr X : List Char} (h : p ≠ c) :
    ¬ (p :: pr).isPrefixOf (c :: X) := by
  rw [List.isPrefixOf_iff_prefix, List.cons_prefix_cons]
  rintro ⟨rfl, -⟩
  exact h rfl

theorem dropAfter_cons_ne {p c : Char} {pr X : List Char} (h : p ≠ c) :
    dropAfter (p :: pr) (c :: X) = dropAfter (p :: pr) X := by
  rw [dropAfter, if_neg (not_isPrefixOf_cons_of_head_ne h)]

theorem takeUntil_cons_ne {p c : Char} {pr X : List Char} (h : p ≠ c) :
    takeUntil (p :: pr) (c :: X) = c :: takeUntil (p :: pr) X := by
  rw [takeUntil, if_neg (not_isPrefixOf_cons_of_head_ne h)]

/-- No occurrence of `pat` can start inside a chunk `v` that does not contain
`pat` as an infix, when the text continues with a character not occurring in
`pat`. -/
theorem not_prefix_var_then {pat v : List Char} {c : Char} {L : List Char}
    (hsub : ¬ pat <:+: v) (hc : c ∉ pat) : ¬ pat <+: v ++ c :: L := by
  intro hpre
  rcases le_or_lt pat.length v.length with hle | hlt
  · exact hsub (List.IsPrefix.isInfix (prefix_of_prefix_append hpre hle))
  · have hsp := prefix_append_split hpre (le_of_lt hlt)
    have hdropne : pat.drop v.length ≠ [] := by
      intro h0
      have := congrArg List.length h0
      simp at this
      omega
    match hd : pat.drop v.length, hdropne with
    | q :: qr, _ =>
      rw [hd] at hsp
      have hq : q = c := by
        have h2 := hsp.2
        rw [List.cons_prefix_cons] at h2
        exact h2.1
      subst hq
      exact hc (List.mem_of_mem_drop (hd ▸ List.mem_cons_self q qr))

/-- Peel a chunk `v` (variable or literal) that does not contain `pat` and is
followed by a character not occurring in `pat`: the first occurrence of `pat`
lies beyond it. -/
theorem dropAfter_var_then {pat v : List Char} {c : Char} {L : List Char}
    (hsub : ¬ pat <:+: v) (hc : c ∉ pat) :
    dropAfter pat (v ++ c :: L) = dropAfter pat (c :: L) := by
  induction v with
  | nil => rfl
  | cons a t ih =>
    rw [List.cons_append, dropAfter, if_neg ?_]
    · exact ih fun hin => hsub (List.infix_cons hin)
    · rw [List.isPrefixOf_iff_prefix]
      exact not_prefix_var_then hsub hc

/-- `takeUntil` analogue of `dropAfter_var_then`. -/
theorem takeUntil_var_then {pat v : List Char} {c : Char} {L : List Char}
    (hsub : ¬ pat <:+: v) (hc : c ∉ pat) :
    takeUntil pat (v ++ c :: L) = v ++ takeUntil pat (c :: L) := by
  induction v with
  | nil => rfl
  | cons a t ih =>
    rw [List.cons_append, takeUntil, if_neg ?_]
    · rw [ih fun hin => hsub (List.infix_cons hin)]
      rfl
    · rw [List.isPrefixOf_iff_prefix]
      exact not_prefix_var_then hsub hc

/-- A list without `pat`'s first character cannot contain `pat` as an infix
(for nonempty `pat`). -/
theorem not_infix_of_head_not_mem {p : Char} {pr v : List Char} (h : p ∉ v) :
    ¬ (p :: pr) <:+: v := by
  intro hin
  exact h (hin.sublist.mem (List.mem_cons_self p pr))

theorem takeWhile_append_cons {p : Char → Bool} {A : List Char} {c : Char} (B : List Char)
    (hA : ∀ a ∈ A, p a = true) (hc : p c = false) :
    (A ++ c :: B).takeWhile p = A := by
  induction A with
  | nil => simp [List.takeWhile_cons, hc]
  | cons a t ih =>
    rw [List.cons_append, List.takeWhile_cons_of_pos (hA a (List.mem_cons_self a t)),
      ih fun x hx => hA x (List.mem_cons_of_mem a hx)]

theorem drop_append_cons {A : List Char} {c : Char} (B : List Char) :
    (A ++ c :: B).drop A.length = c :: B :=
  List.drop_left A (c :: B)

theorem blocks_of_headC (p : Char) {pat A : List Char}
    (hp : pat.head? = some p) (h : p ∉ A) : Blocks pat A := by
  match pat, hp with
  | q :: pr, hp =>
    cases Option.some.inj hp
    exact blocks_of_head_not_mem h

theorem dropAfter_cons_headC (p : Char) {pat X : List Char} {c : Char}
    (hp : pat.head? = some p) (h : p ≠ c) :
    dropAfter pat (c :: X) = dropAfter pat X := by
  match pat, hp with
  | q :: pr, hp =>
    cases Option.some.inj hp
    exact dropAfter_cons_ne h

theorem takeUntil_cons_headC (p : Char) {pat X : List Char} {c : Char}
    (hp : pat.head? = some p) (h : p ≠ c) :
    takeUntil pat (c :: X) = c :: takeUntil pat X := by
  match pat, hp with
  | q :: pr, hp =>
    cases Option.some.inj hp
    exact takeUntil_cons_ne h

/-! ### Decimal rendering lemmas -/

theorem digitChar_isDigit (n : Nat) : (digitChar n).isDigit = true := by
  unfold digitChar
  split_ifs <;> decide

theorem digitChar_ne (n : Nat) {c : Char} (hc : c.isDigit = false) : digitChar n ≠ c := by
  intro h
  rw [← h, digitChar_isDigit n] at hc
  simp at hc

theorem digitVal_digitChar {n : Nat} (h : n < 10) : digitVal (digitChar n) = n := by
  interval_cases n <;> decide

theorem natCharsAux_spec : ∀ fuel n, n < fuel →
    (∀ c ∈ natCharsAux fuel n, c.isDigit = true) ∧ natCharsAux fuel n ≠ [] ∧
      digitsToNat (natCharsAux fuel n) = n := by
  intro fuel
  induction fuel with
  | zero => intro n hn; omega
  | succ f ih =>
    intro n hn
    rw [natCharsAux]
    by_cases h10 : n < 10
    · rw [if_pos h10]
      refine ⟨?_, by simp, ?_⟩
      · intro c hc
        rw [List.mem_singleton] at hc
        subst hc
        exact digitChar_isDigit n
      · show digitsToNat [digitChar n] = n
        unfold digitsToNat
        rw [List.foldl_cons, List.foldl_nil, Nat.mul_zero, Nat.zero_add]
        exact digitVal_digitChar h10
    · rw [if_neg h10]
      have hlt : n / 10 < f := by
        have := Nat.div_lt_self (by omega : 0 < n) (by omega : 1 < 10)
        omega
      obtain ⟨hd, hne, hval⟩ := ih (n / 10) hlt
      refine ⟨?_, by simp, ?_⟩
      · intro c hc
        rcases List.mem_append.mp hc with h1 | h1
        · exact hd c h1
        · rw [List.mem_singleton] at h1
          subst h1
          exact digitChar_isDigit _
      · unfold digitsToNat at hval ⊢
        rw [List.foldl_append, List.foldl_cons, List.foldl_nil, hval,
          digitVal_digitChar (Nat.mod_lt n (by omega))]
        exact Nat.div_add_mod n 10

theorem natChars_digits (n : Nat) : ∀ c ∈ natChars n, c.isDigit = true :=
  (natCharsAux_spec (n + 1) n (by omega)).1

theorem natChars_ne_nil (n : Nat) : natChars n ≠ [] :=
  (natCharsAux_spec (n + 1) n (by omega)).2.1

theorem digitsToNat_natChars (n : Nat) : digitsToNat (natChars n) = n :=
  (natCharsAux_spec (n + 1) n (by omega)).2.2

theorem natChars_not_mem {c : Char} (hc : c.isDigit = false) (n : Nat) : c ∉ natChars n := by
  intro h
  rw [natChars_digits n c h] at hc
  simp at hc

theorem jsTrim_eq (l : List Char) : jsTrim l = dropTrailingWS (l.dropWhile jsWS) := rfl

theorem dropTrailingWS_append_ws {c : Char} (hc : jsWS c = true) (X : List Char) :
    dropTrailingWS (X ++ [c]) = dropTrailingWS X := by
  unfold dropTrailingWS
  rw [List.reverse_append, List.reverse_singleton, List.singleton_append,
    List.dropWhile_cons_of_pos hc]

theorem jsTrim_append_ws {c : Char} (hc : jsWS c = true) (X : List Char) :
    jsTrim (X ++ [c]) = jsTrim X := by
  rw [jsTrim_eq, jsTrim_eq, List.dropWhile_append]
  by_cases h : (X.dropWhile jsWS).isEmpty
  · rw [if_pos h, List.dropWhile_cons_of_pos hc]
    show dropTrailingWS (List.dropWhile jsWS []) = _
    rw [List.isEmpty_iff.mp h]
    rfl
  · rw [if_neg h, dropTrailingWS_append_ws hc]

theorem jsTrim_cons_ws {c : Char} (hc : jsWS c = true) (X : List Char) :
    jsTrim (c :: X) = jsTrim X := by
  rw [jsTrim_eq, jsTrim_eq, List.dropWhile_cons_of_pos hc]

theorem dropTrailingWS_prefix (l : List Char) : dropTrailingWS l <+: l := by
  unfold dropTrailingWS
  conv_rhs => rw [← List.reverse_reverse l]
  exact List.reverse_prefix.mpr (List.dropWhile_suffix _)

theorem jsTrim_head_not_ws {l r : List Char} {a : Char} (h : jsTrim l = a :: r) :
    jsWS a = false := by
  rw [jsTrim_eq] at h
  have hpre := dropTrailingWS_prefix (l.dropWhile jsWS)
  rw [h] at hpre
  have hhd : (l.dropWhile jsWS).head? = some a := by
    rcases hpre with ⟨tl, htl⟩
    rw [← htl]
    rfl
  have := List.head?_dropWhile_not jsWS l
  rw [hhd] at this
  exact this

theorem startsWithSpace_jsTrim (l : List Char) : startsWithSpace (jsTrim l) = false := by
  unfold startsWithSpace
  match h : jsTrim l with
  | [] => rfl
  | a :: r =>
    have hne : a ≠ ' ' := by
      intro hEq
      subst hEq
      exact absurd (jsTrim_head_not_ws h) (by decide)
    simp [hne]

/-! ### Line-splitting lemmas -/

theorem splitOnChar_ne_nil (sep : Char) (l : List Char) : splitOnChar sep l ≠ [] := by
  induction l with
  | nil => simp [splitOnChar]
  | cons a t ih =>
    rw [splitOnChar]
    by_cases h : a = sep
    · rw [if_pos h]; simp
    · rw [if_neg h]; simp

theorem splitOnChar_of_not_mem {sep : Char} {A : List Char} (h : sep ∉ A) :
    splitOnChar sep A = [A] := by
  induction A with
  | nil => rfl
  | cons a t ih =>
    rw [splitOnChar, if_neg (by rintro rfl; exact h (List.mem_cons_self _ _))]
    rw [ih (fun hm => h (List.mem_cons_of_mem _ hm))]
    rfl

theorem splitOnChar_append_sep {sep : Char} {A : List Char} (h : sep ∉ A) (B : List Char) :
    splitOnChar sep (A ++ sep :: B) = A :: splitOnChar sep B := by
  induction A with
  | nil => rw [List.nil_append, splitOnChar, if_pos rfl]
  | cons a t ih =>
    rw [List.cons_append, splitOnChar, if_neg (by rintro rfl; exact h (List.mem_cons_self _ _))]
    rw [ih (fun hm => h (List.mem_cons_of_mem _ hm))]
    rfl

/-! ### The step-list scan never consumes a detail line -/

theorem detailPeek_false (rest : List (List Char)) : detailPeek rest = false := by
  cases rest with
  | nil => rfl
  | cons next r2 => exact startsWithSpace_jsTrim next

theorem peekDetail_nil (rest : List (List Char)) : peekDetail rest = [] := by
  unfold peekDetail
  rw [detailPeek_false]
  rfl

theorem restAfterPeek_id (rest : List (List Char)) : restAfterPeek rest = rest := by
  unfold restAfterPeek
  rw [detailPeek_false]
  rfl

/-- Because the detail peek tests `next.trim().startsWith(" ")` — false for
every trimmed line — the scan always builds the stage with empty detail and
never skips a line. -/
theorem stagesLoop_cons (line : List Char) (rest : List (List Char)) :
    stagesLoop (line :: rest) =
      if headerCheckB line then
        match scanStage line with
        | some (mins, secs, g3, g4) => stageFromMatch mins secs g3 g4 [] :: stagesLoop rest
        | none => stagesLoop rest
      else stagesLoop rest := by
  show stagesLoopAux (rest.length + 1) (line :: rest) = _
  rw [stagesLoopAux]
  simp only [peekDetail_nil, restAfterPeek_id]
  rfl

theorem stagesLoop_mem {lines : List (List Char)} {st : Stage}
    (h : st ∈ stagesLoop lines) :
    st.detail = "" ∧ st.pourTime = min 20 ((st.time + 3) / 4) ∧ st.valveStatus = "" := by
  induction lines with
  | nil => exact absurd h (by simp [stagesLoop, stagesLoopAux])
  | cons line rest ih =>
    rw [stagesLoop_cons] at h
    by_cases hh : headerCheckB line
    · rw [if_pos hh] at h
      cases hscan : scanStage line with
      | none =>
        rw [hscan] at h
        exact ih h
      | some r =>
        obtain ⟨mins, secs, g3, g4⟩ := r
        rw [hscan] at h
        rcases List.mem_cons.mp h with rfl | h
        · exact ⟨rfl, rfl, rfl⟩
        · exact ih h
    · rw [if_neg hh] at h
      exact ih h

theorem parseMethodText_stage_mem {text : String} {now : Nat} {st : Stage}
    (h : st ∈ (parseMethodText text now).params.stages) :
    st.detail = "" ∧ st.pourTime = min 20 ((st.time + 3) / 4) ∧ st.valveStatus = "" := by
  unfold parseMethodText at h
  simp only at h
  by_cases hocc : hasOcc "冲煮步骤:".data text.data
  · rw [if_pos hocc] at h
    exact stagesLoop_mem h
  · rw [if_neg hocc] at h
    exact absurd h (by simp)

/-! ### Claim theorems -/

/-- C3: in `parseMethodText`'s step-list scan, a step header followed by an
indented line should have that line consumed as the stage's detail.  The code
tests `stageLines[i + 1].trim().startsWith(" ")`, which is false for every
trimmed line, so the detail line is never consumed: at this input the line
`   细节说明` immediately following the matched step header is indented, yet
the returned stage's detail is the empty string. -/
theorem C3_indented_detail_never_consumed :
    startsWithSpace "   细节说明".data = true ∧
      (parseMethodText
          "【冲煮方案】T\n\n冲煮步骤:\n\n1. [0分30秒] A - 45g\n   细节说明\n\n--- 复制以上内容可分享和导入 ---"
          0).params.stages.map Stage.detail = [""] := by
  exact ⟨by decide, by decide⟩

/-- C8: every stage parsed by `parseMethodText` gets the reconstructed
`pourTime = Math.min(20, Math.ceil(time * 0.25))`; for a natural cumulative
time `t` (as produced by the header's `60 * minutes + seconds`) the
floating-point expression is exact and equals `min 20 ((t + 3) / 4)`, i.e.
`min(20, ⌈t / 4⌉)`. -/
theorem C8_pourTime_reconstruction (text : String) (now : Nat) (st : Stage)
    (h : st ∈ (parseMethodText text now).params.stages) :
    st.pourTime = min 20 ((st.time + 3) / 4) :=
  (parseMethodText_stage_mem h).2.1

/-- Witness for C8 at a concrete step of 30 cumulative seconds
(`pourTime = min 20 ⌈30 / 4⌉ = 8`). -/
theorem C8_pourTime_reconstruction_witness :
    (Stage.mk 30 8 "A" "45g" "" "circle" "") ∈
        (parseMethodText "冲煮步骤:\n1. [0分30秒] A - 45g" 0).params.stages ∧
      (Stage.mk 30 8 "A" "45g" "" "circle" "").pourTime = min 20 ((30 + 3) / 4) :=
  ⟨by decide,
    C8_pourTime_reconstruction "冲煮步骤:\n1. [0分30秒] A - 45g" 0 _ (by decide)⟩

/-- C10 counterexample: a 烘焙度 line whose captured value is `未知 ` (with a
trailing space) is not the exact string 未知, so the source stores its trimmed
form — and `parseCoffeeBeanText` returns a bean whose roast level is the
literal 未知, which the claim says can never happen. -/
theorem C10_counterexample :
    (parseCoffeeBeanText "烘焙度: 未知 ").roastLevel = "未知" := by decide

/-- C10 (amended): when the 烘焙度 line is absent, or its captured raw value
is exactly 未知, the returned roast level is the default 浅度烘焙.  (A value
that merely trims to 未知, such as `未知 `, is stored instead.) -/
theorem C10_roast_default (text : String)
    (h : labeledValue "烘焙度:".data text.data = none ∨
      labeledValue "烘焙度:".data text.data = some "未知".data) :
    (parseCoffeeBeanText text).roastLevel = "浅度烘焙" := by
  unfold parseCoffeeBeanText
  rcases h with h | h <;> simp only [h]
  rw [if_neg (by simp)]

/-- Witness for C10 at a text with no 烘焙度 line. -/
theorem C10_roast_default_witness :
    (labeledValue "烘焙度:".data "x".data = none ∨
        labeledValue "烘焙度:".data "x".data = some "未知".data) ∧
      (parseCoffeeBeanText "x").roastLevel = "浅度烘焙" :=
  ⟨Or.inl (by decide), C10_roast_default "x" (Or.inl (by decide))⟩

/-- C2 counterexample: `parseMethodText` reuses an id embedded in the imported
text via the `@METHOD_ID:...@` tag — the returned Method's id is the literal
`method-abc` present in the input, not a freshly generated one. -/
theorem C2_counterexample :
    (parseMethodText "【冲煮方案】X\n@METHOD_ID:method-abc@" 7).id = "method-abc" ∧
      hasOcc "method-abc".data "【冲煮方案】X\n@METHOD_ID:method-abc@".data = true ∧
      "method-abc" ≠ "method-" ++ natToStr 7 :=
  ⟨by decide, by decide, by decide⟩

/-- C2 (amended): `parseMethodFromJson` always assigns the freshly generated
id `<Date.now()>-<random suffix>`, regardless of the input document; but
`parseMethodText` only generates a fresh `method-<Date.now()>` id when the
text does *not* embed a `@METHOD_ID:method-...@` tag — when such a tag is
present, the embedded id is reused. -/
theorem C2_fresh_id :
    (∀ (jp : String → Option Json) (s : String) (now : Nat) (rand : String) (m : Method),
        parseMethodFromJson jp s now rand = some m → m.id = natToStr now ++ "-" ++ rand) ∧
      (∀ (text : String) (now : Nat), findMethodId text.data = none →
        (parseMethodText text now).id = "method-" ++ natToStr now) := by
  constructor
  · intro jp s now rand m h
    unfold parseMethodFromJson at h
    split at h
    · exact absurd h (by simp)
    · exact absurd h (by simp)
    · unfold mfjBody at h
      dsimp only at h
      split at h
      · exact absurd h (by simp)
      · split at h
        · exact absurd h (by simp)
        · split at h
          · exact absurd h (by simp)
          · rw [← Option.some.inj h]
  · intro text now h
    unfold parseMethodText
    simp only [h]

/-- Witness for C2 on both import paths. -/
theorem C2_fresh_id_witness :
    parseMethodFromJson jpC2 "s" 3 "r" = some mC2 ∧
      mC2.id = natToStr 3 ++ "-" ++ "r" ∧
      findMethodId "【冲煮方案】X".data = none ∧
      (parseMethodText "【冲煮方案】X" 5).id = "method-" ++ natToStr 5 :=
  ⟨by decide, C2_fresh_id.1 jpC2 "s" 3 "r" mC2 (by decide), by decide,
    C2_fresh_id.2 "【冲煮方案】X" 5 (by decide)⟩

theorem pourType_norm (pt0 : String) :
    (if ["center", "circle", "ice", "other"].contains pt0 then pt0
     else if pt0 = "spiral" then "circle" else "circle") = "center" ∨
    (if ["center", "circle", "ice", "other"].contains pt0 then pt0
     else if pt0 = "spiral" then "circle" else "circle") = "circle" ∨
    (if ["center", "circle", "ice", "other"].contains pt0 then pt0
     else if pt0 = "spiral" then "circle" else "circle") = "ice" ∨
    (if ["center", "circle", "ice", "other"].contains pt0 then pt0
     else if pt0 = "spiral" then "circle" else "circle") = "other" := by
  by_cases h : ["center", "circle", "ice", "other"].contains pt0
  · simp only [if_pos h]
    have h2 : pt0 = "center" ∨ pt0 = "circle" ∨ pt0 = "ice" ∨ pt0 = "other" := by
      simpa using h
    tauto
  · simp only [if_neg h]
    split_ifs <;> simp

theorem valve_norm (vs0 : String) :
    (if vs0 ≠ "" ∧ ¬ ["open", "closed"].contains vs0 = true then "" else vs0) = "open" ∨
    (if vs0 ≠ "" ∧ ¬ ["open", "closed"].contains vs0 = true then "" else vs0) = "closed" ∨
    (if vs0 ≠ "" ∧ ¬ ["open", "closed"].contains vs0 = true then "" else vs0) = "" := by
  by_cases h : vs0 ≠ "" ∧ ¬ ["open", "closed"].contains vs0 = true
  · simp only [if_pos h]
    tauto
  · simp only [if_neg h]
    push_neg at h
    by_cases he : vs0 = ""
    · tauto
    · have h2 : vs0 = "open" ∨ vs0 = "closed" := by simpa using h he
      tauto

theorem stageOfJson_enum {j : Json} {st : Stage} (h : stageOfJson j = some st) :
    (st.pourType = "center" ∨ st.pourType = "circle" ∨ st.pourType = "ice" ∨
      st.pourType = "other") ∧
    (st.valveStatus = "open" ∨ st.valveStatus = "closed" ∨ st.valveStatus = "") := by
  cases j
  case null => exact absurd h (by simp [stageOfJson])
  all_goals
    simp only [stageOfJson] at h
    rw [← Option.some.inj h]
    dsimp only
    exact ⟨pourType_norm _, valve_norm _⟩

theorem mapStages_mem {l : List Json} {l' : List Stage} (h : mapStages l = some l')
    {st : Stage} (hm : st ∈ l') : ∃ j ∈ l, stageOfJson j = some st := by
  induction l generalizing l' with
  | nil =>
    rw [mapStages] at h
    rw [← Option.some.inj h] at hm
    exact absurd hm (by simp)
  | cons j t ih =>
    rw [mapStages] at h
    cases hs : stageOfJson j with
    | none => rw [hs] at h; exact absurd h (by simp)
    | some st0 =>
      rw [hs] at h
      cases hr : mapStages t with
      | none => rw [hr] at h; exact absurd h (by simp)
      | some sts =>
        rw [hr] at h
        rw [← Option.some.inj h] at hm
        rcases List.mem_cons.mp hm with rfl | hm2
        · exact ⟨j, List.mem_cons_self _ _, hs⟩
        · obtain ⟨j', hj', hsj'⟩ := ih hr hm2
          exact ⟨j', List.mem_cons_of_mem _ hj', hsj'⟩

theorem parseMethodFromJson_stage_src {jp : String → Option Json} {s : String}
    {now : Nat} {rand : String} {m : Method}
    (h : parseMethodFromJson jp s now rand = some m) :
    ∀ st ∈ m.params.stages, ∃ j, stageOfJson j = some st := by
  unfold parseMethodFromJson at h
  split at h
  · exact absurd h (by simp)
  · exact absurd h (by simp)
  · unfold mfjBody at h
    dsimp only at h
    split at h
    · exact absurd h (by simp)
    · split at h
      · exact absurd h (by simp)
      · next stages heq =>
        split at h
        · exact absurd h (by simp)
        · rw [← Option.some.inj h]
          intro st hst
          dsimp only at hst
          split at heq
          · obtain ⟨j, _, hj⟩ := mapStages_mem heq hst
            exact ⟨j, hj⟩
          · rw [← Option.some.inj heq] at hst
            exact absurd hst (by simp)

/-- C6: every stage of a Method returned by `parseMethodFromJson` has a
`pourType` among center/circle/ice/other and a `valveStatus` among
open/closed/empty; and a stage entry whose `pourType` field is the JSON
string "spiral" is coerced to "circle". -/
theorem C6_stage_enum_coercion :
    (∀ (jp : String → Option Json) (s : String) (now : Nat) (rand : String) (m : Method),
        parseMethodFromJson jp s now rand = some m →
          ∀ st ∈ m.params.stages,
            (st.pourType = "center" ∨ st.pourType = "circle" ∨ st.pourType = "ice" ∨
              st.pourType = "other") ∧
            (st.valveStatus = "open" ∨ st.valveStatus = "closed" ∨ st.valveStatus = "")) ∧
    (∀ (j : Json) (st : Stage), stageOfJson j = some st →
        j.lookup "pourType" = some (Json.str "spiral") → st.pourType = "circle") := by
  constructor
  · intro jp s now rand m h st hst
    obtain ⟨j, hj⟩ := parseMethodFromJson_stage_src h st hst
    exact stageOfJson_enum hj
  · intro j st h hl
    cases j <;> simp only [Json.lookup] at hl <;> try exact absurd hl (by simp)
    case obj fields =>
      simp only [stageOfJson] at h
      rw [← Option.some.inj h]
      show (if ["center", "circle", "ice", "other"].contains
          (strOr ((Json.obj fields).lookup "pourType") "circle") then
            strOr ((Json.obj fields).lookup "pourType") "circle"
          else if strOr ((Json.obj fields).lookup "pourType") "circle" = "spiral" then "circle"
          else "circle") = "circle"
      rw [show (Json.obj fields).lookup "pourType" = some (Json.str "spiral") from hl]
      decide

theorem stageOfJson_eq_none_iff (j : Json) : stageOfJson j = none ↔ j = Json.null := by
  cases j <;> simp [stageOfJson]

theorem mapStages_eq_none_iff (l : List Json) : mapStages l = none ↔ Json.null ∈ l := by
  induction l with
  | nil => simp [mapStages]
  | cons j t ih =>
    rw [mapStages]
    cases hs : stageOfJson j with
    | none =>
      have hj : j = Json.null := (stageOfJson_eq_none_iff j).mp hs
      simp [hj]
    | some st =>
      have hj : j ≠ Json.null := by
        intro hh
        rw [hh] at hs
        simp [stageOfJson] at hs
      cases hr : mapStages t with
      | none =>
        simp only [Option.some.injEq]
        simp [ih.mp hr]
      | some sts =>
        simp only [List.mem_cons]
        constructor
        · intro hh
          simp at hh
        · rintro (hh | hh)
          · exact absurd hh.symm hj
          · rw [← ih, hr] at hh
            simp at hh

theorem mapStages_length {l : List Json} {l' : List Stage} (h : mapStages l = some l') :
    l'.length = l.length := by
  induction l generalizing l' with
  | nil =>
    rw [mapStages] at h
    rw [← Option.some.inj h]
    rfl
  | cons j t ih =>
    rw [mapStages] at h
    cases hs : stageOfJson j with
    | none => rw [hs] at h; exact absurd h (by simp)
    | some st =>
      rw [hs] at h
      cases hr : mapStages t with
      | none => rw [hr] at h; exact absurd h (by simp)
      | some sts =>
        rw [hr] at h
        rw [← Option.some.inj h]
        simp [ih hr]

theorem parseMethodFromJson_eq_body {jp : String → Option Json} {s : String} {d : Json}
    (hjp : jp s = some d) (hd : d ≠ Json.null) (now : Nat) (rand : String) :
    parseMethodFromJson jp s now rand = mfjBody d now rand := by
  unfold parseMethodFromJson
  rw [hjp]
  cases d
  · exact absurd rfl hd
  all_goals rfl

theorem mfjBody_none_iff (d : Json) (now : Nat) (rand : String) :
    mfjBody d now rand = none ↔
      ((jsTruthy (d.lookup "method") = false ∧ jsTruthy (d.lookup "equipment") = false) ∨
        (if jsTruthy (jsonStagesSrc d) ∧ ((jsonStagesSrc d).getD Json.null).isArr = true then
          Json.null ∈ ((jsonStagesSrc d).getD Json.null).arrElems ∨
            ((jsonStagesSrc d).getD Json.null).arrElems = []
        else True)) := by
  unfold mfjBody jsonStagesSrc
  dsimp only
  by_cases h1 : ¬ jsTruthy (d.lookup "method") = true ∧ ¬ jsTruthy (d.lookup "equipment") = true
  · rw [if_pos h1]
    simp only [Bool.not_eq_true] at h1
    simp [h1.1, h1.2]
  · rw [if_neg h1]
    have h1' : ¬ (jsTruthy (d.lookup "method") = false ∧
        jsTruthy (d.lookup "equipment") = false) := by
      simpa [Bool.not_eq_true] using h1
    by_cases h2 : jsTruthy (optChain (d.lookup "params") "stages") = true ∧
        ((optChain (d.lookup "params") "stages").getD Json.null).isArr = true
    · rw [if_pos h2, if_pos h2]
      cases hm : mapStages ((optChain (d.lookup "params") "stages").getD Json.null).arrElems with
      | none =>
        simp only []
        have := (mapStages_eq_none_iff _).mp hm
        simp [this]
      | some l' =>
        dsimp only
        by_cases h4 : l'.isEmpty
        · rw [if_pos h4]
          have hlen := mapStages_length hm
          have hl' : l' = [] := List.isEmpty_iff.mp h4
          rw [hl'] at hlen
          have hL : ((optChain (d.lookup "params") "stages").getD Json.null).arrElems = [] :=
            List.eq_nil_of_length_eq_zero hlen.symm
          simp [hL]
        · rw [if_neg h4]
          have hnn : Json.null ∉
              ((optChain (d.lookup "params") "stages").getD Json.null).arrElems := by
            rw [← mapStages_eq_none_iff, hm]
            simp
          have hne : ((optChain (d.lookup "params") "stages").getD Json.null).arrElems ≠ [] := by
            intro h0
            rw [h0, mapStages] at hm
            rw [← Option.some.inj hm] at h4
            exact h4 rfl
          simp [h1', hnn, hne]
    · rw [if_neg h2, if_neg h2]
      simp

/-- C5 (amended): `parseMethodFromJson` returns null — and never throws —
exactly when the input fails to parse as JSON, the parsed document is null,
neither `method` nor `equipment` is present with a truthy value (an empty
string, 0, false or null field counts as missing), some entry of the stages
array is null (the property accesses throw), or the normalized stage list
comes out empty; otherwise every scalar param that is absent *or falsy* takes
its fixed default: coffee "15g", water "225g", ratio "1:15", grindSize "中细",
temp "92°C". -/
theorem C5_null_iff_and_defaults :
    (∀ (jp : String → Option Json) (s : String) (now : Nat) (rand : String),
        parseMethodFromJson jp s now rand = none ↔ methodImportFails (jp s)) ∧
    (∀ (jp : String → Option Json) (s : String) (now : Nat) (rand : String) (d : Json)
        (m : Method), jp s = some d → parseMethodFromJson jp s now rand = some m →
          (jsTruthy (optChain (d.lookup "params") "coffee") = false →
            m.params.coffee = "15g") ∧
          (jsTruthy (optChain (d.lookup "params") "water") = false →
            m.params.water = "225g") ∧
          (jsTruthy (optChain (d.lookup "params") "ratio") = false →
            m.params.ratio = "1:15") ∧
          (jsTruthy (optChain (d.lookup "params") "grindSize") = false →
            m.params.grindSize = "中细") ∧
          (jsTruthy (optChain (d.lookup "params") "temp") = false →
            m.params.temp = "92°C")) := by
  constructor
  · intro jp s now rand
    cases hjp : jp s with
    | none => simp [parseMethodFromJson, hjp, methodImportFails]
    | some d =>
      by_cases hd : d = Json.null
      · subst hd
        simp [parseMethodFromJson, hjp, methodImportFails]
      · rw [parseMethodFromJson_eq_body hjp hd, mfjBody_none_iff]
        simp [methodImportFails, hjp, hd]
  · intro jp s now rand d m hjp h
    by_cases hd : d = Json.null
    · subst hd
      rw [parseMethodFromJson, hjp] at h
      exact absurd h (by simp)
    · rw [parseMethodFromJson_eq_body hjp hd] at h
      unfold mfjBody at h
      dsimp only at h
      split at h
      · exact absurd h (by simp)
      · split at h
        · exact absurd h (by simp)
        · split at h
          · exact absurd h (by simp)
          · rw [← Option.some.inj h]
            refine ⟨fun hf => ?_, fun hf => ?_, fun hf => ?_, fun hf => ?_, fun hf => ?_⟩ <;>
              simp [strOr, hf]

/-- C5 counterexample: this input is valid JSON, *has* a `method` field, and
its stage list is nonempty (so the claim's three failure conditions all fail),
yet `parseMethodFromJson` returns null, because the code tests the field's
truthiness and `""` is falsy. -/
theorem C5_counterexample :
    parseMethodFromJson jpC5 "s" 0 "r" = none ∧
      jpC5 "s" = some dC5 ∧
      (dC5.lookup "method").isSome = true ∧
      (((jsonStagesSrc dC5).getD Json.null).arrElems.isEmpty = false ∧
        ((jsonStagesSrc dC5).getD Json.null).arrElems.all (fun j => !j.isNull) = true) :=
  ⟨by decide, rfl, by decide, by decide, by decide⟩

theorem C5_null_iff_and_defaults_witness :
    (parseMethodFromJson jpC5w "bad" 0 "r" = none ↔ methodImportFails (jpC5w "bad")) ∧
      methodImportFails (jpC5w "bad") ∧
      parseMethodFromJson jpC5w "good" 0 "r" = some mC5w ∧
      mC5w.params.coffee = "15g" ∧ mC5w.params.water = "225g" ∧
      mC5w.params.ratio = "1:15" ∧ mC5w.params.grindSize = "中细" ∧
      mC5w.params.temp = "92°C" :=
  ⟨C5_null_iff_and_defaults.1 jpC5w "bad" 0 "r",
    Or.inl rfl,
    by decide,
    (C5_null_iff_and_defaults.2 jpC5w "good" 0 "r" dC5w mC5w rfl (by decide)).1
      (by decide),
    (C5_null_iff_and_defaults.2 jpC5w "good" 0 "r" dC5w mC5w rfl (by decide)).2.1
      (by decide),
    (C5_null_iff_and_defaults.2 jpC5w "good" 0 "r" dC5w mC5w rfl (by decide)).2.2.1
      (by decide),
    (C5_null_iff_and_defaults.2 jpC5w "good" 0 "r" dC5w mC5w rfl (by decide)).2.2.2.1
      (by decide),
    (C5_null_iff_and_defaults.2 jpC5w "good" 0 "r" dC5w mC5w rfl (by decide)).2.2.2.2
      (by decide)⟩

/-- C4: `extractJsonFromText` applies the fixed four-tier priority — raw JSON
first; else the `<!--JSON_DATA:...-->` block (whose parsed contents are
returned, a parse failure of the block yielding null); else the three hidden
`@DATA_TYPE:...@` markers in order; else the three section headers in order;
null when nothing applies. -/
theorem C4_dispatcher_priority (jp : String → Option Json) (text : String) (now : Nat) :
    (∀ j, jp text = some j →
      extractJsonFromText jp text now = some (ExtractResult.json j)) ∧
    (jp text = none → ∀ body, jsonDataBlock text.data = some body →
      extractJsonFromText jp text now = (jp body).map ExtractResult.json) ∧
    (jp text = none → jsonDataBlock text.data = none →
      hasOcc "@DATA_TYPE:COFFEE_BEAN@".data text.data = true →
      extractJsonFromText jp text now = some (ExtractResult.bean (parseCoffeeBeanText text))) ∧
    (jp text = none → jsonDataBlock text.data = none →
      hasOcc "@DATA_TYPE:COFFEE_BEAN@".data text.data = false →
      hasOcc "@DATA_TYPE:BREWING_METHOD@".data text.data = true →
      extractJsonFromText jp text now =
        some (ExtractResult.method (parseMethodText text now))) ∧
    (jp text = none → jsonDataBlock text.data = none →
      hasOcc "@DATA_TYPE:COFFEE_BEAN@".data text.data = false →
      hasOcc "@DATA_TYPE:BREWING_METHOD@".data text.data = false →
      hasOcc "@DATA_TYPE:BREWING_NOTE@".data text.data = true →
      extractJsonFromText jp text now =
        some (ExtractResult.note (parseBrewingNoteText text now))) ∧
    (jp text = none → jsonDataBlock text.data = none →
      hasOcc "@DATA_TYPE:COFFEE_BEAN@".data text.data = false →
      hasOcc "@DATA_TYPE:BREWING_METHOD@".data text.data = false →
      hasOcc "@DATA_TYPE:BREWING_NOTE@".data text.data = false →
      hasOcc "【咖啡豆】".data text.data = true →
      extractJsonFromText jp text now = some (ExtractResult.bean (parseCoffeeBeanText text))) ∧
    (jp text = none → jsonDataBlock text.data = none →
      hasOcc "@DATA_TYPE:COFFEE_BEAN@".data text.data = false →
      hasOcc "@DATA_TYPE:BREWING_METHOD@".data text.data = false →
      hasOcc "@DATA_TYPE:BREWING_NOTE@".data text.data = false →
      hasOcc "【咖啡豆】".data text.data = false →
      hasOcc "【冲煮方案】".data text.data = true →
      extractJsonFromText jp text now =
        some (ExtractResult.method (parseMethodText text now))) ∧
    (jp text = none → jsonDataBlock text.data = none →
      hasOcc "@DATA_TYPE:COFFEE_BEAN@".data text.data = false →
      hasOcc "@DATA_TYPE:BREWING_METHOD@".data text.data = false →
      hasOcc "@DATA_TYPE:BREWING_NOTE@".data text.data = false →
      hasOcc "【咖啡豆】".data text.data = false →
      hasOcc "【冲煮方案】".data text.data = false →
      hasOcc "【冲煮记录】".data text.data = true →
      extractJsonFromText jp text now =
        some (ExtractResult.note (parseBrewingNoteText text now))) ∧
    (jp text = none → jsonDataBlock text.data = none →
      hasOcc "@DATA_TYPE:COFFEE_BEAN@".data text.data = false →
      hasOcc "@DATA_TYPE:BREWING_METHOD@".data text.data = false →
      hasOcc "@DATA_TYPE:BREWING_NOTE@".data text.data = false →
      hasOcc "【咖啡豆】".data text.data = false →
      hasOcc "【冲煮方案】".data text.data = false →
      hasOcc "【冲煮记录】".data text.data = false →
      extractJsonFromText jp text now = none) := by
  refine ⟨?_, ?_, ?_, ?_, ?_, ?_, ?_, ?_, ?_⟩
  · intro j hj
    simp [extractJsonFromText, hj]
  · intro h0 body hb
    simp [extractJsonFromText, h0, hb]
  · intro h0 hb h1
    simp [extractJsonFromText, h0, hb, h1]
  · intro h0 hb h1 h2
    simp [extractJsonFromText, h0, hb, h1, h2]
  · intro h0 hb h1 h2 h3
    simp [extractJsonFromText, h0, hb, h1, h2, h3]
  · intro h0 hb h1 h2 h3 h4
    simp [extractJsonFromText, h0, hb, h1, h2, h3, h4]
  · intro h0 hb h1 h2 h3 h4 h5
    simp [extractJsonFromText, h0, hb, h1, h2, h3, h4, h5]
  · intro h0 hb h1 h2 h3 h4 h5 h6
    simp [extractJsonFromText, h0, hb, h1, h2, h3, h4, h5, h6]
  · intro h0 hb h1 h2 h3 h4 h5 h6
    simp [extractJsonFromText, h0, hb, h1, h2, h3, h4, h5, h6]

/-- Witness for C4: with no JSON parse and no embedded block, a text carrying
the bean marker routes to the bean parser. -/
theorem C4_dispatcher_priority_witness :
    jsonDataBlock "@DATA_TYPE:COFFEE_BEAN@".data = none ∧
      hasOcc "@DATA_TYPE:COFFEE_BEAN@".data "@DATA_TYPE:COFFEE_BEAN@".data = true ∧
      extractJsonFromText (fun _ => none) "@DATA_TYPE:COFFEE_BEAN@" 0 =
        some (ExtractResult.bean (parseCoffeeBeanText "@DATA_TYPE:COFFEE_BEAN@")) :=
  ⟨by decide, by decide,
    (C4_dispatcher_priority (fun _ => none) "@DATA_TYPE:COFFEE_BEAN@" 0).2.2.1 rfl
      (by decide) (by decide)⟩

/-- The 咖啡粉量 capture on a formatted method text whose coffee value is the
sentinel 未设置: as long as the name does not itself contain the label, the
first occurrence of `咖啡粉量:` is the formatter's parameter line, and the
captured value is exactly 未设置. -/
theorem coffee_line_capture (name REST : List Char)
    (hname : ¬ ("咖啡粉量:".data <:+: name)) :
    labeledValue "咖啡粉量:".data
        ("【冲煮方案】".data ++
          (name ++ ('\n' :: '\n' ::
            ("咖啡粉量:".data ++ (' ' :: ("未设置".data ++ ('\n' :: REST))))))) =
      some "未设置".data := by
  unfold labeledValue
  rw [dropAfter_of_blocks (blocks_of_headC '咖' (by decide) (by decide)),
    dropAfter_var_then hname (by decide),
    dropAfter_cons_headC '咖' (by decide) (by decide),
    dropAfter_cons_headC '咖' (by decide) (by decide),
    dropAfter_self (by decide)]
  rw [Option.map_some']
  dsimp only
  simp only [Option.some.injEq]
  rw [List.dropWhile_cons_of_pos (by decide), List.dropWhile_append, if_neg (by decide),
    show List.dropWhile jsWS "未设置".data = "未设置".data from by decide]
  exact takeWhile_append_cons REST (by decide) (by decide)

/-- C7: a Method whose `params.coffee` is empty is formatted with the
parameter line `咖啡粉量: 未设置`, and parsing the formatted text back yields
`coffee = ""` — the sentinel is recognized as absent, not stored.  (The name
is assumed not to contain the label `咖啡粉量:` itself, so that the first
occurrence of the label is the formatter's parameter line.) -/
theorem C7_coffee_sentinel (m : Method) (now : Nat) (hc : m.params.coffee = "")
    (hname : ¬ ("咖啡粉量:".data <:+: m.name.data)) :
    (∃ pre post : List Char,
        (methodToReadableText m).data = pre ++ "咖啡粉量: 未设置\n".data ++ post) ∧
      (parseMethodText (methodToReadableText m) now).params.coffee = "" := by
  have hshape : methodChars m =
      "【冲煮方案】".data ++
        (m.name.data ++ ('\n' :: '\n' ::
          ("咖啡粉量:".data ++ (' ' :: ("未设置".data ++ ('\n' :: methodTailChars m)))))) := by
    rw [methodChars, methodTailChars]
    rw [show paramLineChars "咖啡粉量: " m.params.coffee =
      "咖啡粉量:".data ++ (' ' :: ("未设置".data ++ ['\n'])) from by
        rw [hc]; decide]
    rw [show ("\n\n" : String).data = ['\n', '\n'] from by decide]
    simp only [List.append_assoc, List.cons_append, List.nil_append]
  constructor
  · refine ⟨"【冲煮方案】".data ++ m.name.data ++ ['\n', '\n'], methodTailChars m, ?_⟩
    show methodChars m = _
    rw [hshape]
    rw [show ("咖啡粉量: 未设置\n" : String).data =
      "咖啡粉量:".data ++ (' ' :: ("未设置".data ++ ['\n'])) from by decide]
    simp only [List.append_assoc, List.cons_append, List.nil_append]
  · show (parseMethodText (String.mk (methodChars m)) now).params.coffee = ""
    unfold parseMethodText
    dsimp only
    rw [hshape, coffee_line_capture _ _ hname]
    dsimp only
    rw [if_neg (by decide)]

/-- Witness for C7 at a concrete method with empty coffee. -/
theorem C7_coffee_sentinel_witness :
    ((⟨"id", "名字", ⟨"", "225g", "1:15", "中细", "92°C", "", []⟩⟩ : Method).params.coffee = ""
        ∧ ¬ ("咖啡粉量:".data <:+:
              (⟨"id", "名字", ⟨"", "225g", "1:15", "中细", "92°C", "", []⟩⟩ : Method).name.data)) ∧
      (∃ pre post : List Char,
          (methodToReadableText
              (⟨"id", "名字", ⟨"", "225g", "1:15", "中细", "92°C", "", []⟩⟩ : Method)).data =
            pre ++ "咖啡粉量: 未设置\n".data ++ post) ∧
      (parseMethodText
          (methodToReadableText
            (⟨"id", "名字", ⟨"", "225g", "1:15", "中细", "92°C", "", []⟩⟩ : Method)) 0
        ).params.coffee = "" :=
  ⟨⟨rfl, by decide⟩,
    C7_coffee_sentinel ⟨"id", "名字", ⟨"", "225g", "1:15", "中细", "92°C", "", []⟩⟩ 0 rfl
      (by decide)⟩

theorem blocks_ite {pat X : List Char} (c : Prop) [Decidable c] (h : Blocks pat X) :
    Blocks pat (if c then X else []) := by
  split
  · exact h
  · exact blocks_nil pat

theorem beanChars_shape (b : BeanInput) (hblend : b.blendComponents ≠ []) :
    beanChars b =
      beanPreChars b ++ ('\n' ::
        ("拼配成分:".data ++ ('\n' ::
          (blendLinesChars 0 b.blendComponents ++ beanPostChars b)))) := by
  rw [beanChars, beanPreChars, beanPostChars, if_pos hblend]
  rw [show ("\n拼配成分:\n" : String).data = '\n' :: ("拼配成分:".data ++ ['\n']) from by decide]
  simp only [List.append_assoc, List.cons_append, List.nil_append]

theorem beanPre_blocks (b : BeanInput)
    (hname : ¬ ("拼配成分:".data <:+: b.name.data))
    (hcap : ¬ ("拼配成分:".data <:+: b.capacity.data))
    (hrem : ¬ ("拼配成分:".data <:+: b.remaining.data))
    (hroast : ¬ ("拼配成分:".data <:+: b.roastLevel.data))
    (hdate : ¬ ("拼配成分:".data <:+: b.roastDate.data))
    (horigin : ¬ ("拼配成分:".data <:+: b.origin.data))
    (hprocess : ¬ ("拼配成分:".data <:+: b.process.data))
    (hvariety : ¬ ("拼配成分:".data <:+: b.variety.data))
    (htype : ¬ ("拼配成分:".data <:+: b.type.data))
    (hprice : ¬ ("拼配成分:".data <:+: b.price.data))
    (hflavor : ¬ ("拼配成分:".data <:+: (String.intercalate ", " b.flavor).data)) :
    Blocks "拼配成分:".data (beanPreChars b) := by
  rw [beanPreChars]
  refine Blocks.append (blocks_of_headC '拼' (by decide) (by decide)) ?_
  refine Blocks.append (blocks_var_then hname (by decide)
    (blocks_of_headC '拼' (by decide) (by decide))) ?_
  refine Blocks.append (blocks_of_headC '拼' (by decide) (by decide)) ?_
  refine Blocks.append (blocks_var_then hcap (by decide)
    (blocks_of_headC '拼' (by decide) (by decide))) ?_
  refine Blocks.append (blocks_ite _ (Blocks.append
    (blocks_of_headC '拼' (by decide) (by decide))
    (blocks_var_then hrem (by decide)
      (blocks_of_headC '拼' (by decide) (by decide))))) ?_
  refine Blocks.append (blocks_of_headC '拼' (by decide) (by decide)) ?_
  refine Blocks.append (blocks_of_headC '拼' (by decide) (by decide)) ?_
  refine Blocks.append ?_ ?_
  · split
    · exact blocks_var_then (by decide) (by decide)
        (blocks_of_headC '拼' (by decide) (by decide))
    · exact blocks_var_then hroast (by decide)
        (blocks_of_headC '拼' (by decide) (by decide))
  refine Blocks.append (blocks_ite _ (Blocks.append
    (blocks_of_headC '拼' (by decide) (by decide))
    (blocks_var_then hdate (by decide)
      (blocks_of_headC '拼' (by decide) (by decide))))) ?_
  refine Blocks.append (blocks_ite _ (Blocks.append
    (blocks_of_headC '拼' (by decide) (by decide))
    (blocks_var_then horigin (by decide)
      (blocks_of_headC '拼' (by decide) (by decide))))) ?_
  refine Blocks.append (blocks_ite _ (Blocks.append
    (blocks_of_headC '拼' (by decide) (by decide))
    (blocks_var_then hprocess (by decide)
      (blocks_of_headC '拼' (by decide) (by decide))))) ?_
  refine Blocks.append (blocks_ite _ (Blocks.append
    (blocks_of_headC '拼' (by decide) (by decide))
    (blocks_var_then hvariety (by decide)
      (blocks_of_headC '拼' (by decide) (by decide))))) ?_
  refine Blocks.append (blocks_ite _ (Blocks.append
    (blocks_of_headC '拼' (by decide) (by decide))
    (blocks_var_then htype (by decide)
      (blocks_of_headC '拼' (by decide) (by decide))))) ?_
  refine Blocks.append (blocks_ite _ (Blocks.append
    (blocks_of_headC '拼' (by decide) (by decide))
    (blocks_var_then hprice (by decide)
      (blocks_of_headC '拼' (by decide) (by decide))))) ?_
  exact blocks_ite _ (Blocks.append
    (blocks_of_headC '拼' (by decide) (by decide))
    (blocks_var_then hflavor (by decide)
      (blocks_of_headC '拼' (by decide) (by decide))))

theorem findParen_none {cs : List Char} (h : '(' ∉ cs) : findParen cs = none := by
  induction cs with
  | nil => rfl
  | cons c t ih =>
    rw [findParen]
    by_cases hn : c = '\n'
    · rw [if_pos hn]
    · rw [if_neg hn, if_neg (by rintro rfl; exact h (List.mem_cons_self _ _)),
        ih fun hm => h (List.mem_cons_of_mem _ hm)]
      rfl

theorem blendStep_none {cs : List Char} (h : '(' ∉ cs) : blendStep cs = none := by
  induction cs with
  | nil => rfl
  | cons c t ih =>
    rw [blendStep]
    dsimp only
    have hih := ih fun hm => h (List.mem_cons_of_mem _ hm)
    split
    · have hsub : '(' ∉ ((c :: t).drop
          (((c :: t).takeWhile Char.isDigit).length + 1)).dropWhile jsWS := by
        intro hm
        exact h (List.Sublist.mem hm
          ((List.dropWhile_suffix jsWS).sublist.trans (List.drop_sublist _ _)))
      rw [findParen_none hsub]
      exact hih
    · exact hih

theorem blendLoop_nil {cs : List Char} (h : '(' ∉ cs) (fuel : Nat) :
    blendLoop fuel cs = [] := by
  cases fuel with
  | zero => rfl
  | succ f => rw [blendLoop, blendStep_none h]

theorem blend_lines_no_paren (comps : List BlendCompIn)
    (h : ∀ c ∈ comps, '(' ∉ (String.intercalate " | " (compDetails c)).data) :
    ∀ idx, '(' ∉ blendLinesChars idx comps := by
  induction comps with
  | nil => intro idx; simp [blendLinesChars]
  | cons c t ih =>
    intro idx hm
    rw [blendLinesChars] at hm
    simp only [List.append_assoc, List.mem_append, List.mem_singleton] at hm
    rcases hm with hm | hm | hm | hm | hm | hm | hm
    · exact absurd hm (by decide)
    · exact natChars_not_mem (by decide) _ hm
    · exact absurd hm (by decide)
    · exact natChars_not_mem (by decide) _ hm
    · exact absurd hm (by decide)
    · exact h c (List.mem_cons_self c t) hm
    · rcases hm with hm | hm
      · exact absurd hm (by decide)
      · exact ih (fun x hx => h x (List.mem_cons_of_mem c hx)) (idx + 1) hm

/-- C9: for every bean with a nonempty blend-component list, formatting and
re-parsing yields an *empty* blend-component list: the formatter renders
`<n>. <pct>% <origin | process | variety>` while the parser only accepts
`<n>. <name> (<pct>%)`, a shape the formatter never produces.  Side
conditions: no field contains the section label 拼配成分: itself, and the
component details and notes contain no `(` (otherwise they could accidentally
form a parsable `(<digits>%)`). -/
theorem C9_blend_components_dropped (b : BeanInput)
    (hblend : b.blendComponents ≠ [])
    (hname : ¬ ("拼配成分:".data <:+: b.name.data))
    (hcap : ¬ ("拼配成分:".data <:+: b.capacity.data))
    (hrem : ¬ ("拼配成分:".data <:+: b.remaining.data))
    (hroast : ¬ ("拼配成分:".data <:+: b.roastLevel.data))
    (hdate : ¬ ("拼配成分:".data <:+: b.roastDate.data))
    (horigin : ¬ ("拼配成分:".data <:+: b.origin.data))
    (hprocess : ¬ ("拼配成分:".data <:+: b.process.data))
    (hvariety : ¬ ("拼配成分:".data <:+: b.variety.data))
    (htype : ¬ ("拼配成分:".data <:+: b.type.data))
    (hprice : ¬ ("拼配成分:".data <:+: b.price.data))
    (hflavor : ¬ ("拼配成分:".data <:+: (String.intercalate ", " b.flavor).data))
    (hparen : ∀ c ∈ b.blendComponents, '(' ∉ (String.intercalate " | " (compDetails c)).data)
    (hnotes : '(' ∉ b.notes.data) :
    (parseCoffeeBeanText (beanToReadableText b)).blendComponents = some [] := by
  have hshape := beanChars_shape b hblend
  have hblocks := beanPre_blocks b hname hcap hrem hroast hdate horigin hprocess hvariety
    htype hprice hflavor
  have hdrop : dropAfter "拼配成分:".data (beanChars b) =
      some ('\n' :: (blendLinesChars 0 b.blendComponents ++ beanPostChars b)) := by
    rw [hshape, dropAfter_of_blocks hblocks,
      dropAfter_cons_headC '拼' (by decide) (by decide), dropAfter_self (by decide)]
  have hR : '(' ∉ ('\n' :: (blendLinesChars 0 b.blendComponents ++ beanPostChars b)) := by
    intro hm
    rcases List.mem_cons.mp hm with h0 | hm
    · exact absurd h0 (by decide)
    rcases List.mem_append.mp hm with hm | hm
    · exact blend_lines_no_paren _ hparen 0 hm
    rw [beanPostChars] at hm
    simp only [List.append_assoc, List.mem_append] at hm
    rcases hm with hm | hm | hm
    · by_cases hn : b.notes ≠ ""
      · rw [if_pos hn] at hm
        simp only [List.append_assoc, List.mem_append, List.mem_singleton] at hm
        rcases hm with hm | hm | hm
        · exact absurd hm (by decide)
        · exact hnotes hm
        · exact absurd hm (by decide)
      · rw [if_neg hn] at hm
        exact absurd hm (by simp)
    · exact absurd hm (by decide)
    · exact absurd hm (by decide)
  have hocc : hasOcc "拼配成分:".data (beanChars b) = true := by
    unfold hasOcc
    rw [hdrop]
    rfl
  show (parseCoffeeBeanText (String.mk (beanChars b))).blendComponents = some []
  unfold parseCoffeeBeanText
  dsimp only
  rw [if_pos hocc, hdrop]
  rw [blendLoop_nil ?_]
  · rfl
  · intro hm
    exact hR (mem_of_mem_takeUntil (mem_of_mem_takeUntil hm))

/-- Witness for C9 at a concrete two-component blend. -/
theorem C9_blend_components_dropped_witness :
    beanC9.blendComponents ≠ [] ∧
      (parseCoffeeBeanText (beanToReadableText beanC9)).blendComponents = some [] :=
  ⟨by decide,
    C9_blend_components_dropped beanC9 (by decide) (by decide) (by decide) (by decide)
      (by decide) (by decide) (by decide) (by decide) (by decide) (by decide) (by decide)
      (by decide) (by decide) (by decide)⟩

theorem dropAfter_eq_none_of_not_infix {pat l : List Char} (h : ¬ pat <:+: l) :
    dropAfter pat l = none := by
  induction l with
  | nil => rfl
  | cons a t ih =>
    rw [dropAfter, if_neg ?_]
    · exact ih fun hin => h (List.infix_cons hin)
    · intro hp
      rw [List.isPrefixOf_iff_prefix] at hp
      exact h hp.isInfix

theorem dropAfter_isSome_of_infix {pat l : List Char} (hpat : pat ≠ [])
    (h : pat <:+: l) : (dropAfter pat l).isSome = true := by
  induction l with
  | nil =>
    rw [List.infix_nil] at h
    exact absurd h hpat
  | cons a t ih =>
    rw [dropAfter]
    by_cases hp : pat.isPrefixOf (a :: t)
    · rw [if_pos hp]
      rfl
    · rw [if_neg hp]
      refine ih ?_
      rcases List.infix_cons_iff.mp h with h1 | h1
      · exact absurd (List.isPrefixOf_iff_prefix.mpr h1) hp
      · exact h1

theorem dropAfter_eq_none_of_blocks {pat A : List Char} (h : Blocks pat A) :
    dropAfter pat A = none := by
  induction A with
  | nil => rfl
  | cons a t ih =>
    rw [dropAfter, if_neg ?_]
    · exact ih fun B A₂ hsuf hne => h B A₂ (hsuf.trans (List.suffix_cons a t)) hne
    · intro hp
      rw [List.isPrefixOf_iff_prefix] at hp
      have h0 := h [] (a :: t) List.suffix_rfl (by simp)
      rw [List.append_nil] at h0
      exact h0 hp

theorem not_infix_of_headC (p : Char) {pat v : List Char}
    (hp : pat.head? = some p) (h : p ∉ v) : ¬ pat <:+: v := by
  match pat, hp with
  | q :: pr, hp =>
    cases Option.some.inj hp
    exact not_infix_of_head_not_mem h

theorem not_prefix_cons_headC (p : Char) {pat : List Char} {c : Char} {X : List Char}
    (hp : pat.head? = some p) (h : p ≠ c) : ¬ pat <+: c :: X := by
  match pat, hp with
  | q :: pr, hp =>
    cases Option.some.inj hp
    rw [List.cons_prefix_cons]
    rintro ⟨rfl, -⟩
    exact h rfl

theorem blocks_cons (p : Char) {pat : List Char} {c : Char} {X : List Char}
    (hp : pat.head? = some p) (hc : p ≠ c) (h : Blocks pat X) : Blocks pat (c :: X) := by
  intro B A₂ hsuf hne
  rw [List.suffix_cons_iff] at hsuf
  rcases hsuf with rfl | hsuf
  · rw [List.cons_append]
    exact not_prefix_cons_headC p hp hc
  · exact h B A₂ hsuf hne

theorem blocksIn_nil (pat C : List Char) : BlocksIn pat [] C := by
  intro A₂ h h2
  rw [List.suffix_nil] at h
  exact absurd h h2

theorem blocksIn_of_blocks {pat A : List Char} (h : Blocks pat A) (C : List Char) :
    BlocksIn pat A C :=
  fun A₂ hsuf hne => h C A₂ hsuf hne

theorem blocksIn_append {pat A A' C : List Char} (h1 : BlocksIn pat A (A' ++ C))
    (h2 : BlocksIn pat A' C) : BlocksIn pat (A ++ A') C := by
  intro A₂ hsuf hne
  rcases suffix_append_cases hsuf with h | ⟨s, rfl, hs, hsne⟩
  · exact h2 A₂ h hne
  · rw [List.append_assoc]
    exact h1 s hs hsne

theorem blocksIn_cons {pat : List Char} {c : Char} {A C : List Char}
    (h1 : ¬ pat <+: c :: (A ++ C)) (h2 : BlocksIn pat A C) : BlocksIn pat (c :: A) C := by
  intro A₂ hsuf hne
  rw [List.suffix_cons_iff] at hsuf
  rcases hsuf with rfl | hsuf
  · rw [List.cons_append]
    exact h1
  · exact h2 A₂ hsuf hne

theorem takeUntil_of_blocksIn {pat A C : List Char} (h : BlocksIn pat A C) :
    takeUntil pat (A ++ C) = A ++ takeUntil pat C := by
  induction A with
  | nil => rfl
  | cons a t ih =>
    rw [List.cons_append, takeUntil, if_neg ?_]
    · rw [ih fun A₂ hsuf hne => h A₂ (hsuf.trans (List.suffix_cons a t)) hne]
      rfl
    · intro hp
      rw [List.isPrefixOf_iff_prefix] at hp
      exact h (a :: t) List.suffix_rfl (by simp) (by simpa using hp)

/-- The step-separator pattern `\n---` cannot start at a newline whose
successor is not a dash. -/
theorem nlpat_not_prefix {X : List Char} (h : X.head? ≠ some '-') :
    ¬ "\n---".data <+: '\n' :: X := by
  rw [show ("\n---" : String).data = '\n' :: '-' :: '-' :: '-' :: [] from by decide,
    List.cons_prefix_cons]
  rintro ⟨-, hp⟩
  rcases hp with ⟨t, ht⟩
  apply h
  rw [← ht]
  rfl

theorem jsWS_false_of_isDigit {c : Char} (h : c.isDigit = true) : jsWS c = false := by
  by_contra hw
  simp only [Bool.not_eq_false] at hw
  simp only [jsWS, decide_eq_true_eq] at hw
  rcases hw with rfl | rfl | rfl | rfl <;> simp at h

theorem jsTrim_cons_ne_nil {c : Char} {X : List Char} (h : jsWS c = false) :
    jsTrim (c :: X) ≠ [] := by
  intro h0
  rw [jsTrim, List.dropWhile_cons_of_neg (by simp [h])] at h0
  rw [List.reverse_eq_nil_iff, List.dropWhile_eq_nil_iff] at h0
  have h1 := h0 c (by simp)
  rw [h] at h1
  exact absurd h1 (by simp)

theorem natChars_cons (n : Nat) : ∃ d X, natChars n = d :: X ∧ d.isDigit = true := by
  obtain ⟨d, X, h⟩ := List.exists_cons_of_ne_nil (natChars_ne_nil n)
  exact ⟨d, X, h, natChars_digits n d (h ▸ List.mem_cons_self d X)⟩

theorem mem_getPourTypeText {c : Char} {pt : String} (h : c ∈ (getPourTypeText pt).data) :
    c ∈ "中心注水绕圈冰块其他方式".data := by
  rw [getPourTypeText] at h
  split_ifs at h
  · exact (by decide : ∀ a ∈ ("中心注水" : String).data,
      a ∈ ("中心注水绕圈冰块其他方式" : String).data) c h
  · exact (by decide : ∀ a ∈ ("绕圈注水" : String).data,
      a ∈ ("中心注水绕圈冰块其他方式" : String).data) c h
  · exact (by decide : ∀ a ∈ ("冰块注水" : String).data,
      a ∈ ("中心注水绕圈冰块其他方式" : String).data) c h
  · exact (by decide : ∀ a ∈ ("其他方式" : String).data,
      a ∈ ("中心注水绕圈冰块其他方式" : String).data) c h
  · exact (by decide : ∀ a ∈ ("绕圈注水" : String).data,
      a ∈ ("中心注水绕圈冰块其他方式" : String).data) c h

theorem mem_pourTimeDeco {c : Char} {st : Stage} (h : c ∈ pourTimeDeco st) :
    c ∈ " (注水秒)".data ∨ c.isDigit = true := by
  rw [pourTimeDeco] at h
  split at h
  · simp only [List.append_assoc, List.mem_append] at h
    rcases h with h | h | h
    · exact Or.inl ((by decide : ∀ a ∈ (" (注水" : String).data,
        a ∈ (" (注水秒)" : String).data) c h)
    · exact Or.inr (natChars_digits _ c h)
    · exact Or.inl ((by decide : ∀ a ∈ ("秒)" : String).data,
        a ∈ (" (注水秒)" : String).data) c h)
  · exact absurd h (by simp)

theorem mem_pourTypeDeco {c : Char} {st : Stage} (h : c ∈ pourTypeDeco st) :
    c ∈ " [中心注水绕圈冰块其他方式]".data := by
  rw [pourTypeDeco] at h
  split at h
  · simp only [List.append_assoc, List.mem_append] at h
    rcases h with h | h | h
    · exact (by decide : ∀ a ∈ (" [" : String).data,
        a ∈ (" [中心注水绕圈冰块其他方式]" : String).data) c h
    · exact (by decide : ∀ a ∈ ("中心注水绕圈冰块其他方式" : String).data,
        a ∈ (" [中心注水绕圈冰块其他方式]" : String).data) c (mem_getPourTypeText h)
    · exact (by decide : ∀ a ∈ ("]" : String).data,
        a ∈ (" [中心注水绕圈冰块其他方式]" : String).data) c h
  · exact absurd h (by simp)

theorem not_mem_pourTimeDeco {c : Char} {st : Stage} (h1 : c ∉ " (注水秒)".data)
    (h2 : c.isDigit = false) : c ∉ pourTimeDeco st := by
  intro h
  rcases mem_pourTimeDeco h with h | h
  · exact h1 h
  · rw [h] at h2
    exact absurd h2 (by simp)

theorem not_mem_pourTypeDeco {c : Char} {st : Stage}
    (h1 : c ∉ " [中心注水绕圈冰块其他方式]".data) : c ∉ pourTypeDeco st :=
  fun h => h1 (mem_pourTypeDeco h)

/-- Right-nested regrouping of a step header line, for chunkwise scanning. -/
theorem stageLine_group (idx : Nat) (st : Stage) :
    stageLineChars idx st =
      natChars (idx + 1) ++ ('.' :: ' ' :: '[' ::
        (natChars (st.time / 60) ++ ('分' ::
          (natChars (st.time % 60) ++ ('秒' :: ']' ::
            (pourTimeDeco st ++ (pourTypeDeco st ++ (' ' ::
              (st.label.data ++ (' ' :: '-' :: ' ' :: st.water.data)))))))))) := by
  rw [stageLineChars,
    show (". [" : String).data = '.' :: ' ' :: '[' :: [] from by decide,
    show ("分" : String).data = ['分'] from by decide,
    show ("秒]" : String).data = '秒' :: ']' :: [] from by decide,
    show (" - " : String).data = ' ' :: '-' :: ' ' :: [] from by decide]
  simp only [List.append_assoc, List.cons_append, List.nil_append, List.singleton_append]

theorem stageLine_cons (idx : Nat) (st : Stage) :
    ∃ d X, stageLineChars idx st = d :: X ∧ d.isDigit = true := by
  obtain ⟨d, X, hnc, hd⟩ := natChars_cons (idx + 1)
  rw [stageLine_group, hnc]
  exact ⟨d, _, List.cons_append d X _, hd⟩

theorem newline_not_mem_stageLine {idx : Nat} {st : Stage}
    (hl : '\n' ∉ st.label.data) (hw : '\n' ∉ st.water.data) :
    '\n' ∉ stageLineChars idx st := by
  intro h
  rw [stageLineChars] at h
  simp only [List.append_assoc, List.mem_append, List.mem_singleton] at h
  rcases h with h | h | h | h | h | h | h | h | h | h | h | h
  · exact natChars_not_mem (by decide) _ h
  · exact absurd h (by decide)
  · exact natChars_not_mem (by decide) _ h
  · exact absurd h (by decide)
  · exact natChars_not_mem (by decide) _ h
  · exact absurd h (by decide)
  · exact not_mem_pourTimeDeco (by decide) (by decide) h
  · exact not_mem_pourTypeDeco (by decide) h
  · exact absurd h (by decide)
  · exact hl h
  · exact absurd h (by decide)
  · exact hw h

/-- Right-nested regrouping of a whole step block. -/
theorem stageBlock_group (idx : Nat) (st : Stage) :
    stageBlockChars idx st =
      natChars (idx + 1) ++ ('.' :: ' ' :: '[' ::
        (natChars (st.time / 60) ++ ('分' ::
          (natChars (st.time % 60) ++ ('秒' :: ']' ::
            (pourTimeDeco st ++ (pourTypeDeco st ++ (' ' ::
              (st.label.data ++ (' ' :: '-' :: ' ' ::
                (st.water.data ++ ('\n' ::
                  ((if st.detail ≠ "" then "   ".data ++ (st.detail.data ++ ['\n'])
                    else []) ++ ['\n']))))))))))))) := by
  rw [stageBlockChars, stageLine_group]
  simp only [List.append_assoc, List.cons_append, List.nil_append, List.singleton_append]

theorem stageBlocks_eq_init : ∀ (sts : List Stage) (idx : Nat), sts ≠ [] →
    stageBlocks idx sts = stageBlocksInit idx sts ++ ['\n'] := by
  intro sts
  induction sts with
  | nil => intro idx h; exact absurd rfl h
  | cons st rest ih =>
    intro idx _
    cases rest with
    | nil =>
      rw [stageBlocks, stageBlocks, stageBlocksInit, stageBlockChars]
      simp only [List.append_assoc, List.cons_append, List.nil_append, List.append_nil]
    | cons st₂ rest₂ =>
      rw [stageBlocks, stageBlocksInit, ih (idx + 1) (by simp), stageBlockChars]
      simp only [List.append_assoc, List.cons_append, List.nil_append]

theorem stageInit_head (idx : Nat) (st : Stage) (rest : List Stage) :
    ∃ d X, stageBlocksInit idx (st :: rest) = d :: X ∧ d.isDigit = true := by
  obtain ⟨d, X, hnc, hd⟩ := stageLine_cons idx st
  cases rest with
  | nil =>
    rw [stageBlocksInit, hnc]
    exact ⟨d, _, List.cons_append d X _, hd⟩
  | cons st₂ rest₂ =>
    rw [stageBlocksInit, hnc]
    exact ⟨d, _, List.cons_append d X _, hd⟩

theorem blocksIn_detailPart {st : Stage} (hd : '\n' ∉ st.detail.data) {C : List Char}
    {c : Char} (hC : C.head? = some c) (hc : c ≠ '-') :
    BlocksIn "\n---".data
      (if st.detail ≠ "" then "   ".data ++ (st.detail.data ++ ['\n']) else []) C := by
  obtain ⟨C', rfl⟩ : ∃ C', C = c :: C' := by
    cases C with
    | nil => simp at hC
    | cons x xs =>
      rw [List.head?_cons, Option.some.injEq] at hC
      exact ⟨xs, by rw [hC]⟩
  split
  · rw [show ("   " : String).data = ' ' :: ' ' :: ' ' :: [] from by decide,
      List.cons_append, List.cons_append, List.cons_append, List.nil_append]
    refine blocksIn_cons (not_prefix_cons_headC '\n' (by decide) (by decide)) ?_
    refine blocksIn_cons (not_prefix_cons_headC '\n' (by decide) (by decide)) ?_
    refine blocksIn_cons (not_prefix_cons_headC '\n' (by decide) (by decide)) ?_
    refine blocksIn_append
      (blocksIn_of_blocks (blocks_of_headC '\n' (by decide) hd) _) ?_
    refine blocksIn_cons ?_ (blocksIn_nil _ _)
    rw [List.nil_append]
    exact nlpat_not_prefix (by simp [hc])
  · exact blocksIn_nil _ _

theorem blocksIn_stageInit : ∀ (sts : List Stage),
    (∀ st ∈ sts, '\n' ∉ st.label.data ∧ '\n' ∉ st.water.data ∧ '\n' ∉ st.detail.data) →
    ∀ (idx : Nat) (C : List Char), C.head? = some '\n' →
    BlocksIn "\n---".data (stageBlocksInit idx sts) C := by
  intro sts
  induction sts with
  | nil => intro _ idx C _; exact blocksIn_nil _ _
  | cons st rest ih =>
    intro h idx C hC
    obtain ⟨hl, hw, hd⟩ := h st (List.mem_cons_self st rest)
    cases rest with
    | nil =>
      rw [stageBlocksInit]
      refine blocksIn_append (blocksIn_of_blocks
        (blocks_of_headC '\n' (by decide) (newline_not_mem_stageLine hl hw)) _) ?_
      refine blocksIn_cons ?_ (blocksIn_detailPart hd hC (by decide))
      by_cases hdet : st.detail ≠ ""
      · rw [if_pos hdet, show ("   " : String).data = ' ' :: ' ' :: ' ' :: [] from by decide]
        exact nlpat_not_prefix (by simp)
      · rw [if_neg hdet, List.nil_append]
        exact nlpat_not_prefix (by rw [hC]; simp)
    | cons st₂ rest₂ =>
      rw [stageBlocksInit]
      have hrest := fun st' hst' => h st' (List.mem_cons_of_mem st hst')
      obtain ⟨d, X, hinit, hdig⟩ := stageInit_head (idx + 1) st₂ rest₂
      refine blocksIn_append (blocksIn_of_blocks
        (blocks_of_headC '\n' (by decide) (newline_not_mem_stageLine hl hw)) _) ?_
      refine blocksIn_cons ?_ ?_
      · by_cases hdet : st.detail ≠ ""
        · rw [if_pos hdet, show ("   " : String).data = ' ' :: ' ' :: ' ' :: [] from by decide]
          exact nlpat_not_prefix (by simp)
        · rw [if_neg hdet, List.nil_append]
          exact nlpat_not_prefix (by simp)
      · refine blocksIn_append (blocksIn_detailPart hd (by rw [List.cons_append]; rfl)
          (by decide)) ?_
        refine blocksIn_cons ?_ (ih hrest (idx + 1) C hC)
        rw [hinit]
        refine nlpat_not_prefix ?_
        rw [List.cons_append]
        simp only [List.head?_cons]
        intro hcontra
        injection hcontra with hcontra
        rw [hcontra] at hdig
        exact absurd hdig (by decide)

/-- A step block never lets an occurrence of the section label 冲煮步骤:
start inside it, provided the variable fields do not contain the label. -/
theorem chong_blocks_stageBlock (idx : Nat) (st : Stage)
    (hla : ¬ ("冲煮步骤:".data <:+: st.label.data))
    (hwa : ¬ ("冲煮步骤:".data <:+: st.water.data))
    (hde : ¬ ("冲煮步骤:".data <:+: st.detail.data)) :
    Blocks "冲煮步骤:".data (stageBlockChars idx st) := by
  rw [stageBlock_group]
  refine Blocks.append (blocks_of_headC '冲' (by decide)
    (natChars_not_mem (by decide) _)) ?_
  refine blocks_cons '冲' (by decide) (by decide) ?_
  refine blocks_cons '冲' (by decide) (by decide) ?_
  refine blocks_cons '冲' (by decide) (by decide) ?_
  refine Blocks.append (blocks_of_headC '冲' (by decide)
    (natChars_not_mem (by decide) _)) ?_
  refine blocks_cons '冲' (by decide) (by decide) ?_
  refine Blocks.append (blocks_of_headC '冲' (by decide)
    (natChars_not_mem (by decide) _)) ?_
  refine blocks_cons '冲' (by decide) (by decide) ?_
  refine blocks_cons '冲' (by decide) (by decide) ?_
  refine Blocks.append (blocks_of_headC '冲' (by decide)
    (not_mem_pourTimeDeco (by decide) (by decide))) ?_
  refine Blocks.append (blocks_of_headC '冲' (by decide)
    (not_mem_pourTypeDeco (by decide))) ?_
  refine blocks_cons '冲' (by decide) (by decide) ?_
  refine blocks_var_then hla (by decide) ?_
  refine blocks_cons '冲' (by decide) (by decide) ?_
  refine blocks_cons '冲' (by decide) (by decide) ?_
  refine blocks_cons '冲' (by decide) (by decide) ?_
  refine blocks_var_then hwa (by decide) ?_
  refine blocks_cons '冲' (by decide) (by decide) ?_
  refine Blocks.append (blocks_ite _ (Blocks.append
    (blocks_of_headC '冲' (by decide) (by decide))
    (blocks_var_then hde (by decide)
      (blocks_of_headC '冲' (by decide) (by decide))))) ?_
  exact blocks_of_headC '冲' (by decide) (by decide)

theorem chong_blocks_stageBlocks : ∀ (sts : List Stage),
    (∀ st ∈ sts, ¬ ("冲煮步骤:".data <:+: st.label.data) ∧
      ¬ ("冲煮步骤:".data <:+: st.water.data) ∧
      ¬ ("冲煮步骤:".data <:+: st.detail.data)) →
    ∀ (idx : Nat), Blocks "冲煮步骤:".data (stageBlocks idx sts) := by
  intro sts
  induction sts with
  | nil => intro _ idx; exact blocks_nil _
  | cons st rest ih =>
    intro h idx
    obtain ⟨h1, h2, h3⟩ := h st (List.mem_cons_self st rest)
    rw [stageBlocks]
    exact Blocks.append (chong_blocks_stageBlock idx st h1 h2 h3)
      (ih (fun st' hst' => h st' (List.mem_cons_of_mem st hst')) (idx + 1))

theorem methodChars_shape (m : Method) (hst : m.params.stages ≠ []) :
    methodChars m =
      methodPreChars m ++ ("冲煮步骤:".data ++ ('\n' :: '\n' ::
        (stageBlocks 0 m.params.stages ++ methodFootChars))) := by
  rw [methodChars, methodPreChars, methodFootChars, if_pos hst]
  simp only [paramLineChars]
  simp only [List.append_assoc, List.cons_append, List.nil_append]

theorem methodPre_blocks (m : Method)
    (hname : ¬ ("冲煮步骤:".data <:+: m.name.data))
    (hcoffee : ¬ ("冲煮步骤:".data <:+: m.params.coffee.data))
    (hwater : ¬ ("冲煮步骤:".data <:+: m.params.water.data))
    (hratio : ¬ ("冲煮步骤:".data <:+: m.params.ratio.data))
    (hgrind : ¬ ("冲煮步骤:".data <:+: m.params.grindSize.data))
    (htemp : ¬ ("冲煮步骤:".data <:+: m.params.temp.data)) :
    Blocks "冲煮步骤:".data (methodPreChars m) := by
  rw [methodPreChars]
  refine Blocks.append (blocks_of_blocksB (by decide)) ?_
  refine Blocks.append (blocks_var_then hname (by decide)
    (blocks_of_headC '冲' (by decide) (by decide))) ?_
  refine Blocks.append (blocks_of_headC '冲' (by decide) (by decide)) ?_
  refine Blocks.append (blocks_of_headC '冲' (by decide) (by decide)) ?_
  refine Blocks.append (blocks_var_then ?_ (by decide)
    (blocks_of_headC '冲' (by decide) (by decide))) ?_
  · by_cases hc : m.params.coffee = ""
    · rw [if_pos hc]; decide
    · rw [if_neg hc]; exact hcoffee
  refine Blocks.append (blocks_of_headC '冲' (by decide) (by decide)) ?_
  refine Blocks.append (blocks_var_then ?_ (by decide)
    (blocks_of_headC '冲' (by decide) (by decide))) ?_
  · by_cases hc : m.params.water = ""
    · rw [if_pos hc]; decide
    · rw [if_neg hc]; exact hwater
  refine Blocks.append (blocks_of_headC '冲' (by decide) (by decide)) ?_
  refine Blocks.append (blocks_var_then ?_ (by decide)
    (blocks_of_headC '冲' (by decide) (by decide))) ?_
  · by_cases hc : m.params.ratio = ""
    · rw [if_pos hc]; decide
    · rw [if_neg hc]; exact hratio
  refine Blocks.append (blocks_of_headC '冲' (by decide) (by decide)) ?_
  refine Blocks.append (blocks_var_then ?_ (by decide)
    (blocks_of_headC '冲' (by decide) (by decide))) ?_
  · by_cases hc : m.params.grindSize = ""
    · rw [if_pos hc]; decide
    · rw [if_neg hc]; exact hgrind
  refine Blocks.append (blocks_of_headC '冲' (by decide) (by decide)) ?_
  refine Blocks.append (blocks_var_then ?_ (by decide)
    (blocks_of_headC '冲' (by decide) (by decide))) ?_
  · by_cases hc : m.params.temp = ""
    · rw [if_pos hc]; decide
    · rw [if_neg hc]; exact htemp
  exact blocks_of_headC '冲' (by decide) (by decide)

/-- Capture of the method-name regex on a formatted method text whose name
contains no newline: the capture is the name itself. -/
theorem method_name_capture (name REST : List Char) (hnl : '\n' ∉ name) :
    markerValue "【冲煮方案】".data
      ("【冲煮方案】".data ++ (name ++ ('\n' :: REST))) = some name := by
  unfold markerValue
  rw [dropAfter_self (by decide), Option.map_some']
  simp only [Option.some.injEq]
  exact takeWhile_append_cons REST
    (fun a ha => decide_eq_true (fun h => hnl (h ▸ ha))) (by decide)

/-- The step-header regex matched against a formatter-produced header line:
the groups come back as the time split into minutes and seconds, the label
*with its reconstruction decorations* (trimmed), and the water. -/
theorem stageAt_stageLine (idx : Nat) (st : Stage)
    (hlab : '-' ∉ st.label.data) (hw : jsTrim st.water.data = st.water.data) :
    stageAt (stageLineChars idx st) =
      some (st.time / 60, st.time % 60,
        jsTrim (pourTimeDeco st ++ (pourTypeDeco st ++ ' ' :: st.label.data)),
        st.water.data) := by
  have hA : ∀ a ∈ pourTimeDeco st ++ (pourTypeDeco st ++
      (' ' :: (st.label.data ++ [' ']))), (decide (a ≠ '-')) = true := by
    intro a ha
    refine decide_eq_true ?_
    rintro rfl
    simp only [List.mem_append, List.mem_cons, List.mem_singleton] at ha
    rcases ha with ha | ha | ha | ha | ha
    · exact not_mem_pourTimeDeco (by decide) (by decide) ha
    · exact not_mem_pourTypeDeco (by decide) ha
    · exact absurd ha (by decide)
    · exact hlab ha
    · exact absurd ha (by decide)
  rw [stageLine_group]
  simp only [stageAt]
  rw [takeWhile_append_cons _ (natChars_digits _) (by decide)]
  rw [if_neg (fun hco => natChars_ne_nil (idx + 1) (List.isEmpty_iff.mp hco))]
  rw [drop_append_cons]
  rw [if_neg (by simp)]
  rw [List.tail_cons, List.dropWhile_cons_of_pos (by decide),
    List.dropWhile_cons_of_neg (by decide)]
  rw [if_neg (by simp)]
  rw [List.tail_cons]
  rw [takeWhile_append_cons _ (natChars_digits _) (by decide)]
  rw [if_neg (fun hco => natChars_ne_nil (st.time / 60) (List.isEmpty_iff.mp hco))]
  rw [drop_append_cons]
  rw [if_neg (by simp)]
  rw [List.tail_cons]
  rw [takeWhile_append_cons _ (natChars_digits _) (by decide)]
  rw [if_neg (fun hco => natChars_ne_nil (st.time % 60) (List.isEmpty_iff.mp hco))]
  rw [drop_append_cons]
  rw [if_neg (by simp)]
  rw [if_neg (by simp)]
  rw [List.tail_cons, List.tail_cons]
  rw [show pourTimeDeco st ++ (pourTypeDeco st ++
      (' ' :: (st.label.data ++ (' ' :: '-' :: ' ' :: st.water.data)))) =
    (pourTimeDeco st ++ (pourTypeDeco st ++ (' ' :: (st.label.data ++ [' '])))) ++
      ('-' :: ' ' :: st.water.data) from by
    simp only [List.append_assoc, List.cons_append, List.nil_append,
      List.singleton_append]]
  rw [takeWhile_append_cons _ hA (by decide)]
  rw [drop_append_cons]
  rw [if_neg (by simp)]
  rw [digitsToNat_natChars, digitsToNat_natChars, List.tail_cons,
    jsTrim_cons_ws (by decide), hw]
  rw [show pourTimeDeco st ++ (pourTypeDeco st ++ (' ' :: (st.label.data ++ [' ']))) =
    (pourTimeDeco st ++ (pourTypeDeco st ++ (' ' :: st.label.data))) ++ [' '] from by
    simp only [List.append_assoc, List.cons_append]]
  rw [jsTrim_append_ws (by decide)]

theorem scanStage_eq {l : List Char} {r : Nat × Nat × List Char × List Char}
    (hne : l ≠ []) (h : stageAt l = some r) : scanStage l = some r := by
  cases l with
  | nil => exact absurd rfl hne
  | cons c cs => rw [scanStage, h]

theorem headerCheckB_stageLine (idx : Nat) (st : Stage) :
    headerCheckB (stageLineChars idx st) = true := by
  rw [stageLine_group]
  simp only [headerCheckB]
  rw [takeWhile_append_cons _ (natChars_digits _) (by decide), drop_append_cons]
  rw [List.tail_cons, List.dropWhile_cons_of_pos (by decide),
    List.dropWhile_cons_of_neg (by decide)]
  have h1 : (natChars (idx + 1)).isEmpty = false := by
    cases h : (natChars (idx + 1)).isEmpty
    · rfl
    · exact absurd (List.isEmpty_iff.mp h) (natChars_ne_nil _)
  rw [h1, List.tail_cons]
  have hm : (']' : Char) ∈ natChars (st.time / 60) ++ ('分' ::
      (natChars (st.time % 60) ++ ('秒' :: ']' ::
        (pourTimeDeco st ++ (pourTypeDeco st ++ (' ' ::
          (st.label.data ++ (' ' :: '-' :: ' ' :: st.water.data)))))))) := by
    refine List.mem_append_right _ ?_
    refine List.mem_cons_of_mem _ (List.mem_append_right _ ?_)
    exact List.mem_cons_of_mem _ (List.mem_cons_self _ _)
  simp [hm]

theorem headerCheckB_detailLine (d : List Char) :
    headerCheckB (' ' :: ' ' :: ' ' :: d) = false := by
  simp only [headerCheckB]
  have hds : List.takeWhile Char.isDigit (' ' :: ' ' :: ' ' :: d) = [] :=
    List.takeWhile_cons_of_neg (by decide)
  simp [hds]

theorem str_data_ne_nil {s : String} (h : s ≠ "") : s.data ≠ [] := by
  intro h0
  apply h
  cases s
  simp only [String.data] at h0
  rw [h0]

theorem splitFilter_stageInit : ∀ (sts : List Stage),
    (∀ st ∈ sts, '\n' ∉ st.label.data ∧ '\n' ∉ st.water.data ∧ '\n' ∉ st.detail.data ∧
      jsTrim st.detail.data = st.detail.data) →
    ∀ idx, (splitOnChar '\n' (stageBlocksInit idx sts)).filter
        (fun l => !(jsTrim l).isEmpty) = linesOf idx sts := by
  intro sts
  induction sts with
  | nil => intro _ idx; rfl
  | cons st rest ih =>
    intro h idx
    obtain ⟨hl, hw, hd, hdt⟩ := h st (List.mem_cons_self st rest)
    have hrest := fun st' hst' => h st' (List.mem_cons_of_mem st hst')
    have hkeepline : (!(jsTrim (stageLineChars idx st)).isEmpty) = true := by
      obtain ⟨dd, X, hcons, hdig⟩ := stageLine_cons idx st
      rw [hcons]
      have hne := jsTrim_cons_ne_nil (X := X) (jsWS_false_of_isDigit hdig)
      cases hh : (jsTrim (dd :: X)).isEmpty
      · rfl
      · exact absurd (List.isEmpty_iff.mp hh) hne
    have hdmem : '\n' ∉ "   ".data ++ st.detail.data := by
      intro hmem
      rcases List.mem_append.mp hmem with hmem | hmem
      · exact absurd hmem (by decide)
      · exact hd hmem
    have hkeepdet : st.detail ≠ "" →
        (!(jsTrim ("   ".data ++ st.detail.data)).isEmpty) = true := by
      intro hdetne
      rw [show ("   " : String).data = ' ' :: ' ' :: ' ' :: [] from by decide,
        List.cons_append, List.cons_append, List.cons_append, List.nil_append,
        jsTrim_cons_ws (by decide), jsTrim_cons_ws (by decide),
        jsTrim_cons_ws (by decide), hdt]
      cases hh : st.detail.data.isEmpty
      · rfl
      · exact absurd (List.isEmpty_iff.mp hh) (str_data_ne_nil hdetne)
    cases rest with
    | nil =>
      rw [stageBlocksInit]
      by_cases hdet : st.detail ≠ ""
      · rw [if_pos hdet,
          splitOnChar_append_sep (newline_not_mem_stageLine hl hw),
          show ("   " : String).data ++ (st.detail.data ++ ['\n']) =
            ("   ".data ++ st.detail.data) ++ '\n' :: [] from by
              simp only [List.append_assoc, List.cons_append, List.nil_append],
          splitOnChar_append_sep hdmem]
        rw [List.filter_cons, if_pos hkeepline, List.filter_cons,
          if_pos (hkeepdet hdet)]
        rw [show splitOnChar '\n' ([] : List Char) = [[]] from rfl,
          List.filter_cons, if_neg (by decide), List.filter_nil]
        rw [linesOf, if_pos hdet, linesOf]
        rfl
      · rw [if_neg hdet, splitOnChar_append_sep (newline_not_mem_stageLine hl hw)]
        rw [show splitOnChar '\n' ([] : List Char) = [[]] from rfl,
          List.filter_cons, if_pos hkeepline, List.filter_cons,
          if_neg (by decide), List.filter_nil]
        rw [linesOf, if_neg hdet, linesOf]
        rfl
    | cons st₂ rest₂ =>
      rw [stageBlocksInit]
      by_cases hdet : st.detail ≠ ""
      · rw [if_pos hdet,
          splitOnChar_append_sep (newline_not_mem_stageLine hl hw),
          show ("   " : String).data ++ (st.detail.data ++ ['\n']) ++
              ('\n' :: stageBlocksInit (idx + 1) (st₂ :: rest₂)) =
            ("   ".data ++ st.detail.data) ++ '\n' ::
              ('\n' :: stageBlocksInit (idx + 1) (st₂ :: rest₂)) from by
              simp only [List.append_assoc, List.cons_append, List.nil_append],
          splitOnChar_append_sep hdmem]
        rw [show splitOnChar '\n' ('\n' :: stageBlocksInit (idx + 1) (st₂ :: rest₂)) =
          [] :: splitOnChar '\n' (stageBlocksInit (idx + 1) (st₂ :: rest₂)) from by
            rw [splitOnChar, if_pos rfl]]
        rw [List.filter_cons, if_pos hkeepline, List.filter_cons,
          if_pos (hkeepdet hdet), List.filter_cons, if_neg (by decide)]
        rw [ih hrest (idx + 1)]
        conv_rhs => rw [linesOf]
        rw [if_pos hdet]
        rfl
      · rw [if_neg hdet, List.nil_append,
          splitOnChar_append_sep (newline_not_mem_stageLine hl hw)]
        rw [show splitOnChar '\n' ('\n' :: stageBlocksInit (idx + 1) (st₂ :: rest₂)) =
          [] :: splitOnChar '\n' (stageBlocksInit (idx + 1) (st₂ :: rest₂)) from by
            rw [splitOnChar, if_pos rfl]]
        rw [List.filter_cons, if_pos hkeepline, List.filter_cons, if_neg (by decide)]
        rw [ih hrest (idx + 1)]
        conv_rhs => rw [linesOf]
        rw [if_neg hdet]
        rfl

theorem stagesLoop_linesOf : ∀ (sts : List Stage),
    (∀ st ∈ sts, '-' ∉ st.label.data ∧ jsTrim st.water.data = st.water.data) →
    ∀ idx, stagesLoop (linesOf idx sts) = sts.map parsedOf := by
  intro sts
  induction sts with
  | nil => intro _ idx; rfl
  | cons st rest ih =>
    intro h idx
    obtain ⟨h1, h2⟩ := h st (List.mem_cons_self st rest)
    have hrest := fun st' hst' => h st' (List.mem_cons_of_mem st hst')
    obtain ⟨dd, X, hcons, hdig⟩ := stageLine_cons idx st
    have hscan := scanStage_eq (r := (st.time / 60, st.time % 60,
        jsTrim (pourTimeDeco st ++ (pourTypeDeco st ++ ' ' :: st.label.data)),
        st.water.data)) (by rw [hcons]; simp) (stageAt_stageLine idx st h1 h2)
    rw [linesOf, stagesLoop_cons, if_pos (headerCheckB_stageLine idx st), hscan]
    dsimp only
    by_cases hdet : st.detail ≠ ""
    · rw [if_pos hdet, List.singleton_append, stagesLoop_cons,
        if_neg (by simp [headerCheckB_detailLine]), ih hrest (idx + 1), List.map_cons]
      rfl
    · rw [if_neg hdet, List.nil_append, ih hrest (idx + 1), List.map_cons]
      rfl

/-- C1 (amended): round-tripping a formatted method through the dispatcher
preserves the name, every stage's time and water, and the stage order — but
each returned stage's label is the *decorated* header fragment
`(注水X秒) [pour-type text] label` (trimmed) that the formatter rendered, not
the original label, because the parser's label group captures everything
between `秒]` and the first dash.  Side conditions: the text is not raw JSON,
contains neither a legacy JSON block nor the bean marker, the name and the
stage fields contain no newline or section label, labels contain no dash, and
water/detail values are trim-invariant. -/
theorem C1_roundtrip_decorated_labels (m : Method) (now : Nat)
    (jp : String → Option Json)
    (hst : m.params.stages ≠ [])
    (hjp : jp (methodToReadableText m) = none)
    (hjd : ¬ ("<!--JSON_DATA:".data <:+: methodChars m))
    (hcb : ¬ ("@DATA_TYPE:COFFEE_BEAN@".data <:+: methodChars m))
    (hnl : '\n' ∉ m.name.data)
    (hnt : jsTrim m.name.data = m.name.data)
    (hname : ¬ ("冲煮步骤:".data <:+: m.name.data))
    (hcoffee : ¬ ("冲煮步骤:".data <:+: m.params.coffee.data))
    (hwater : ¬ ("冲煮步骤:".data <:+: m.params.water.data))
    (hratio : ¬ ("冲煮步骤:".data <:+: m.params.ratio.data))
    (hgrind : ¬ ("冲煮步骤:".data <:+: m.params.grindSize.data))
    (htemp : ¬ ("冲煮步骤:".data <:+: m.params.temp.data))
    (hstages : ∀ st ∈ m.params.stages,
      '\n' ∉ st.label.data ∧ '\n' ∉ st.water.data ∧ '\n' ∉ st.detail.data ∧
        '-' ∉ st.label.data ∧ jsTrim st.water.data = st.water.data ∧
        jsTrim st.detail.data = st.detail.data ∧
        ¬ ("冲煮步骤:".data <:+: st.label.data) ∧
        ¬ ("冲煮步骤:".data <:+: st.water.data) ∧
        ¬ ("冲煮步骤:".data <:+: st.detail.data)) :
    extractJsonFromText jp (methodToReadableText m) now =
        some (.method (parseMethodText (methodToReadableText m) now)) ∧
      (parseMethodText (methodToReadableText m) now).name = m.name ∧
      (parseMethodText (methodToReadableText m) now).params.stages.map
          (fun s => (s.time, s.label, s.water)) =
        m.params.stages.map (fun st => (st.time,
          String.mk (jsTrim (pourTimeDeco st ++ (pourTypeDeco st ++ ' ' :: st.label.data))),
          st.water)) := by
  refine ⟨?_, ?_, ?_⟩
  · unfold extractJsonFromText
    rw [hjp]
    have hjdb : jsonDataBlock (methodToReadableText m).data = none := by
      unfold jsonDataBlock
      rw [show (methodToReadableText m).data = methodChars m from rfl,
        dropAfter_eq_none_of_not_infix hjd]
    have hcbF : hasOcc "@DATA_TYPE:COFFEE_BEAN@".data (methodToReadableText m).data
        = false := by
      unfold hasOcc
      rw [show (methodToReadableText m).data = methodChars m from rfl,
        dropAfter_eq_none_of_not_infix hcb]
      rfl
    have hbmT : hasOcc "@DATA_TYPE:BREWING_METHOD@".data (methodToReadableText m).data
        = true := by
      refine dropAfter_isSome_of_infix (by decide) ?_
      show _ <:+: methodChars m
      refine List.IsSuffix.isInfix ?_
      rw [methodChars,
        show ("\n\n@DATA_TYPE:BREWING_METHOD@" : String).data =
          '\n' :: '\n' :: ("@DATA_TYPE:BREWING_METHOD@" : String).data from by decide]
      exact (show ("@DATA_TYPE:BREWING_METHOD@" : String).data <:+
          '\n' :: '\n' :: ("@DATA_TYPE:BREWING_METHOD@" : String).data
        from ⟨['\n', '\n'], rfl⟩).trans (List.suffix_append _ _)
    rw [hjdb, hcbF, hbmT]
    rfl
  · show (parseMethodText (String.mk (methodChars m)) now).name = m.name
    unfold parseMethodText
    dsimp only
    have hnshape : methodChars m =
        "【冲煮方案】".data ++ (m.name.data ++ ('\n' :: ('\n' ::
          (paramLineChars "咖啡粉量: " m.params.coffee ++ methodTailChars m)))) := by
      rw [methodChars, methodTailChars,
        show ("\n\n" : String).data = ['\n', '\n'] from by decide]
      simp only [List.append_assoc, List.cons_append, List.nil_append]
    rw [hnshape, method_name_capture _ _ hnl]
    dsimp only
    by_cases hne : m.name = ""
    · rw [if_neg (by rw [hne]; simp)]
      exact hne.symm
    · rw [if_pos (str_data_ne_nil hne), hnt]
  · show (parseMethodText (String.mk (methodChars m)) now).params.stages.map _ = _
    unfold parseMethodText
    dsimp only
    have hda : dropAfter "冲煮步骤:".data (methodChars m) =
        some ('\n' :: '\n' :: (stageBlocks 0 m.params.stages ++ methodFootChars)) := by
      rw [methodChars_shape m hst,
        dropAfter_of_blocks (methodPre_blocks m hname hcoffee hwater hratio hgrind htemp),
        dropAfter_self (by decide)]
    have hocc : hasOcc "冲煮步骤:".data (methodChars m) = true := by
      unfold hasOcc
      rw [hda]
      rfl
    rw [if_pos hocc, hda, Option.getD_some]
    have hin : takeUntil "冲煮步骤:".data ('\n' :: '\n' ::
        (stageBlocks 0 m.params.stages ++ methodFootChars)) = '\n' :: '\n' ::
        (stageBlocks 0 m.params.stages ++ methodFootChars) := by
      refine takeUntil_of_no_occurrence (dropAfter_eq_none_of_blocks ?_)
      refine blocks_cons '冲' (by decide) (by decide) ?_
      refine blocks_cons '冲' (by decide) (by decide) ?_
      refine Blocks.append (chong_blocks_stageBlocks m.params.stages
        (fun st hstm => ⟨(hstages st hstm).2.2.2.2.2.2.1,
          (hstages st hstm).2.2.2.2.2.2.2.1, (hstages st hstm).2.2.2.2.2.2.2.2⟩) 0) ?_
      exact blocks_of_blocksB (by decide)
    rw [hin]
    obtain ⟨st0, rest0, hsts⟩ := List.exists_cons_of_ne_nil hst
    have hshape2 : '\n' :: '\n' :: (stageBlocks 0 m.params.stages ++ methodFootChars) =
        ('\n' :: '\n' :: stageBlocksInit 0 m.params.stages) ++
          ("\n---".data ++ (" 复制以上内容可分享和导入 ---".data ++
            "\n\n@DATA_TYPE:BREWING_METHOD@".data)) := by
      rw [stageBlocks_eq_init m.params.stages 0 hst, methodFootChars,
        show ("--- 复制以上内容可分享和导入 ---" : String).data =
          '-' :: '-' :: '-' :: (" 复制以上内容可分享和导入 ---" : String).data from by decide,
        show ("\n---" : String).data = '\n' :: '-' :: '-' :: '-' :: [] from by decide]
      simp only [List.append_assoc, List.cons_append, List.nil_append]
    have hBIn : BlocksIn "\n---".data ('\n' :: '\n' :: stageBlocksInit 0 m.params.stages)
        ("\n---".data ++ (" 复制以上内容可分享和导入 ---".data ++
          "\n\n@DATA_TYPE:BREWING_METHOD@".data)) := by
      refine blocksIn_cons ?_ (blocksIn_cons ?_ (blocksIn_stageInit m.params.stages
        (fun st hstm => ⟨(hstages st hstm).1, (hstages st hstm).2.1,
          (hstages st hstm).2.2.1⟩) 0 _ rfl))
      · refine nlpat_not_prefix ?_
        rw [List.cons_append]
        simp
      · obtain ⟨d, X, hinit, hdig⟩ := stageInit_head 0 st0 rest0
        refine nlpat_not_prefix ?_
        rw [hsts, hinit, List.cons_append]
        simp only [List.head?_cons]
        intro hco
        injection hco with hco
        rw [hco] at hdig
        exact absurd hdig (by decide)
    rw [hshape2, takeUntil_of_blocksIn hBIn, takeUntil_self (by decide), List.append_nil]
    rw [show splitOnChar '\n' ('\n' :: '\n' :: stageBlocksInit 0 m.params.stages) =
      [] :: [] :: splitOnChar '\n' (stageBlocksInit 0 m.params.stages) from by
        rw [splitOnChar, if_pos rfl, splitOnChar, if_pos rfl]]
    rw [List.filter_cons, if_neg (by decide), List.filter_cons, if_neg (by decide)]
    rw [splitFilter_stageInit m.params.stages
      (fun st hstm => ⟨(hstages st hstm).1, (hstages st hstm).2.1,
        (hstages st hstm).2.2.1, (hstages st hstm).2.2.2.2.2.1⟩) 0]
    rw [stagesLoop_linesOf m.params.stages
      (fun st hstm => ⟨(hstages st hstm).2.2.2.1, (hstages st hstm).2.2.2.2.1⟩) 0]
    rw [List.map_map]
    refine List.map_congr_left ?_
    intro st hstm
    simp only [Function.comp, parsedOf, stageFromMatch, Prod.mk.injEq]
    exact ⟨Nat.div_add_mod' st.time 60, trivial⟩

/-- C1 counterexample: the dispatcher routes the formatted text to
`parseMethodText` and the name survives, but the stage (time, label, water)
triples do *not* round-trip: the stage of `mC1` comes back with label
`(注水8秒) [绕圈注水] 绕圈` instead of `绕圈`. -/
theorem C1_counterexample :
    extractJsonFromText jpC1 (methodToReadableText mC1) 0 =
        some (.method (parseMethodText (methodToReadableText mC1) 0)) ∧
      (parseMethodText (methodToReadableText mC1) 0).name = mC1.name ∧
      (parseMethodText (methodToReadableText mC1) 0).params.stages.map
          (fun s => (s.time, s.label, s.water)) ≠
        mC1.params.stages.map (fun s => (s.time, s.label, s.water)) :=
  ⟨rfl, rfl, by decide⟩

set_option maxRecDepth 8192 in
/-- Witness for C1 at the concrete method `mC1`. -/
theorem C1_roundtrip_decorated_labels_witness :
    mC1.params.stages ≠ [] ∧
      (extractJsonFromText jpC1 (methodToReadableText mC1) 0 =
          some (.method (parseMethodText (methodToReadableText mC1) 0)) ∧
        (parseMethodText (methodToReadableText mC1) 0).name = mC1.name ∧
        (parseMethodText (methodToReadableText mC1) 0).params.stages.map
            (fun s => (s.time, s.label, s.water)) =
          mC1.params.stages.map (fun st => (st.time,
            String.mk (jsTrim (pourTimeDeco st ++
              (pourTypeDeco st ++ ' ' :: st.label.data))),
            st.water))) :=
  ⟨by decide,
    C1_roundtrip_decorated_labels mC1 0 jpC1 (by decide) rfl (by decide) (by decide)
      (by decide) (by decide) (by decide) (by decide) (by decide) (by decide) (by decide)
      (by decide) (by decide)⟩

/-- Witness for C6: the spiral/halfopen stage is coerced to circle/"". -/
theorem C6_stage_enum_coercion_witness :
    parseMethodFromJson jpC6 "s" 0 "r" = some mC6 ∧
      ((⟨30, 0, "", "", "", "circle", ""⟩ : Stage) ∈ mC6.params.stages ∧
        ((⟨30, 0, "", "", "", "circle", ""⟩ : Stage).pourType = "center" ∨
          (⟨30, 0, "", "", "", "circle", ""⟩ : Stage).pourType = "circle" ∨
          (⟨30, 0, "", "", "", "circle", ""⟩ : Stage).pourType = "ice" ∨
          (⟨30, 0, "", "", "", "circle", ""⟩ : Stage).pourType = "other") ∧
        ((⟨30, 0, "", "", "", "circle", ""⟩ : Stage).valveStatus = "open" ∨
          (⟨30, 0, "", "", "", "circle", ""⟩ : Stage).valveStatus = "closed" ∨
          (⟨30, 0, "", "", "", "circle", ""⟩ : Stage).valveStatus = "")) :=
  ⟨by decide,
    ⟨by decide,
      C6_stage_enum_coercion.1 jpC6 "s" 0 "r" mC6 (by decide) _ (by decide)⟩⟩

end BrewGuide

